import Mathlib

/-!
Shallow embedding of gtsam's `JacobianFactor`
(`src/gtsam/linear/JacobianFactor.{h,cpp}`).

Real scalars are modelled as rationals.  A factor's augmented matrix
`Ab = [A | b]` is stored row-wise: each row is the list of its key blocks
(the trailing width-1 `b` block is kept in the separate field `b`, mirroring
the way the source accesses it through `getb()`).  The block widths live in
`dims` (the source's block-offset table), the diagonal noise model is an
`Option` because the source stores a possibly-null `shared_ptr`
(`SharedDiagonal model_`), and `firstNonzeroBlocks` is the per-row staircase
hint.  Fallible operations (null-model dereferences, singular elimination)
return `Option`/`Except`.
-/

namespace GtsamJF

abbrev Vec := List ℚ

/-- Dot product of two coefficient lists (inner_prod; truncates at the
shorter list, which never happens on well-formed data). -/
def dotQ : Vec → Vec → ℚ
  | a :: as, c :: cs => a * c + dotQ as cs
  | _, _ => 0

/-- Componentwise vector sum (ublas `+=`). -/
def addV (a c : Vec) : Vec := List.zipWith (· + ·) a c

/-- Scalar multiple of a vector. -/
def scaleV (c : ℚ) (v : Vec) : Vec := v.map (fun a => c * a)

/-- Componentwise negation of a vector. -/
def negL (v : Vec) : Vec := v.map Neg.neg

/-- Modelled from the spec: `Diagonal::whiten(v)` (gtsam/linear/NoiseModel,
not under src/) returns the elementwise quotient `v / σ`. -/
def whitenV (sigmas : Vec) (v : Vec) : Vec := List.zipWith (fun s a => a / s) sigmas v

/-- Modelled from the spec: a diagonal noise model is a per-row σ vector
together with the constrained/plain distinction (`isConstrained()`). -/
structure NoiseModelM where
  sigmas : Vec
  constrained : Bool
deriving DecidableEq

/-- The JacobianFactor data: keys, block widths, the `A` part of the
augmented matrix stored as rows of blocks, the right-hand side `b`, the
(possibly null) noise model and the per-row staircase hint. -/
structure JacobianFactor where
  keys : List Nat
  dims : List Nat
  rows : List (List Vec)
  b : Vec
  model : Option NoiseModelM
  firstNonzeroBlocks : List Nat
deriving DecidableEq

/-- The default-constructed (null) factor: no keys, no blocks, no rows. -/
def jfNull : JacobianFactor := ⟨[], [], [], [], none, []⟩

instance : Inhabited JacobianFactor := ⟨jfNull⟩

/-- A dense matrix argument to a constructor: column count plus rows
(a ublas matrix knows its size2 even with zero rows). -/
structure MatM where
  cols : Nat
  vals : List Vec
deriving DecidableEq

/-- The n-ary constructor `JacobianFactor(terms, b, model)`: keys and block
widths come from the terms, the matrix has `b.size` rows, and
`firstNonzeroBlocks` is initialised to 0 for every row. -/
def mkJacobianFactor (terms : List (Nat × MatM)) (bIn : Vec)
    (model : Option NoiseModelM) : JacobianFactor :=
  { keys := terms.map Prod.fst
    dims := terms.map (fun t => t.2.cols)
    rows := (List.range bIn.length).map (fun i => terms.map (fun t => t.2.vals.getD i []))
    b := bIn
    model := model
    firstNonzeroBlocks := List.replicate bIn.length 0 }

/-- The b-only constructor `JacobianFactor(const Vector& b)`: no keys, one
width-1 block holding `b`, and the `model_` member is left at its default
(null) value. -/
def jfB (bIn : Vec) : JacobianFactor :=
  { keys := [], dims := [], rows := List.replicate bIn.length [], b := bIn
    model := none, firstNonzeroBlocks := List.replicate bIn.length 0 }

/-- `empty()`: the factor has zero rows (`Ab_.size1() == 0`). -/
def emptyF (f : JacobianFactor) : Bool := f.rows.isEmpty

/-- `prod(Ab_(pos), v)`: the column of per-row dot products of block `pos`
against a vector. -/
def blockMulVec (f : JacobianFactor) (pos : Nat) (v : Vec) : Vec :=
  f.rows.map (fun row => dotQ (row.getD pos []) v)

/-- `unweighted_error(c) = A·x − b`, computed as in the source: start from
`e = −b`, return it if the factor is empty, otherwise accumulate
`prod(Ab_(pos), c[keys_[pos]])` for each block. -/
def unweighted_error (f : JacobianFactor) (x : Nat → Vec) : Vec :=
  let e := f.b.map Neg.neg
  if f.rows.isEmpty then e
  else
    (List.range f.keys.length).foldl
      (fun e pos => addV e (blockMulVec f pos (x (f.keys.getD pos 0)))) e

/-- `error_vector(c)`: whiten `−b` when empty, else whiten the unweighted
error.  Dereferences the noise model, hence `Option`. -/
def error_vector (f : JacobianFactor) (x : Nat → Vec) : Option Vec :=
  f.model.map (fun nm =>
    if f.rows.isEmpty then whitenV nm.sigmas (f.b.map Neg.neg)
    else whitenV nm.sigmas (unweighted_error f x))

/-- `error(c)`: 0 for an empty factor (before any model access), otherwise
half the squared norm of the whitened error vector. -/
def error (f : JacobianFactor) (x : Nat → Vec) : Option ℚ :=
  if f.rows.isEmpty then some 0
  else (error_vector f x).map (fun w => (1 / 2 : ℚ) * dotQ w w)

/-- The value of `error` under the model-present precondition. -/
def errorD (f : JacobianFactor) (x : Nat → Vec) : ℚ := (error f x).getD 0

/-- `operator*(x)`: `whiten(A·x)` (does not subtract `b`); returns the zero
vector without touching the model when the factor is empty. -/
def mulF (f : JacobianFactor) (x : Nat → Vec) : Option Vec :=
  let ax : Vec := List.replicate f.rows.length 0
  if f.rows.isEmpty then some ax
  else
    f.model.map (fun nm =>
      whitenV nm.sigmas
        ((List.range f.keys.length).foldl
          (fun e pos => addV e (blockMulVec f pos (x (f.keys.getD pos 0)))) ax))

/-- Modelled from the spec: `gtsam::transposeMultiplyAdd(1.0, A, e, x)`
(gtsam/base/Matrix, not under src/) adds `Aᵀ·e` into `x`; here the summand
`Aⱼᵀ·e` for block `pos` is built by accumulating `eᵢ·(row i of the block)`. -/
def aTmulVec (f : JacobianFactor) (pos : Nat) (e : Vec) : Vec :=
  (List.zipWith (fun c row => scaleV c (row.getD pos [])) e f.rows).foldl addV
    (List.replicate (f.dims.getD pos 0) 0)

/-- Pointwise update of a VectorValues at one variable. -/
def updVV (x : Nat → Vec) (k : Nat) (v : Vec) : Nat → Vec :=
  fun k2 => if k2 = k then v else x k2

/-- `transposeMultiplyAdd(alpha, e, x)`: forms `E = alpha·whiten(e)` (a
model dereference) and adds `Aⱼᵀ·E` into `x[keys_[j]]` for every block. -/
def transposeMultiplyAdd (f : JacobianFactor) (alpha : ℚ) (e : Vec)
    (x : Nat → Vec) : Option (Nat → Vec) :=
  f.model.map (fun nm =>
    let bigE := scaleV alpha (whitenV nm.sigmas e)
    (List.range f.keys.length).foldl
      (fun acc pos =>
        let k := f.keys.getD pos 0
        updVV acc k (addV (acc k) (aTmulVec f pos bigE))) x)

/-- `whiten()`: a copy with every row of the full augmented matrix (blocks
and `b`) divided by its σ, and the model replaced by the unit model of the
old model's dimension. -/
def whiten (f : JacobianFactor) : Option JacobianFactor :=
  f.model.map (fun nm =>
    { f with
      rows := List.zipWith (fun s row => row.map (fun blk => blk.map (fun a => a / s)))
        nm.sigmas f.rows
      b := List.zipWith (fun s a => a / s) nm.sigmas f.b
      model := some ⟨List.replicate nm.sigmas.length 1, false⟩ })

/-- `sparse(columnIndices)`: triples `(i+1, j+column_start, A(i,j)/σᵢ)` of
the nonzero entries of every key block.  The column lookup
(`columnIndices.at`) and the per-row `model_->sigma(i)` dereference are the
two failure points, both reached only when the corresponding loops run. -/
def sparse (f : JacobianFactor) (columnIndices : Nat → Option Nat) :
    Option (List Int × List Int × List ℚ) := do
  let parts ← (List.range f.keys.length).mapM (fun pos => do
    let cstart ← columnIndices (f.keys.getD pos 0)
    let rowParts ← f.rows.enum.mapM (fun p => do
      let nm ← f.model
      let si := nm.sigmas.getD p.1 0
      pure ((p.2.getD pos []).enum.filterMap (fun q =>
        if q.2 ≠ 0 then some (((p.1 : Int) + 1, ((q.1 : Int) + (cstart : Int)), q.2 / si))
        else none)))
    pure rowParts.flatten)
  let entries := parts.flatten
  pure (entries.map (fun t => t.1), entries.map (fun t => t.2.1), entries.map (fun t => t.2.2))

/-- Tolerance comparison of two coefficient vectors.  Modelled from the
spec: `equal_with_abs_tol` (gtsam/base/Vector, not under src/) requires
equal sizes and entrywise agreement within `tol`. -/
def equalAbsTol (a c : Vec) (tol : ℚ) : Bool :=
  a.length == c.length && (List.zipWith (fun u w => decide (|u - w| ≤ tol)) a c).all id

/-- The full augmented row `r` of a factor: the concatenated key blocks
followed by the `b` entry (the source's `ublas::row(Ab_.range(0, nBlocks), r)`). -/
def rowConcat (f : JacobianFactor) (r : Nat) : Vec :=
  (f.rows.getD r []).flatten ++ [f.b.getD r 0]

/-- `equals(f, tol)`: empty receivers compare by emptiness alone; otherwise
keys must coincide and every augmented row of the receiver must match the
other factor's row up to sign, within tolerance.  The noise model is never
consulted. -/
def equals (f g : JacobianFactor) (tol : ℚ) : Bool :=
  if emptyF f then emptyF g
  else if f.keys = g.keys then
    (List.range f.rows.length).all (fun r =>
      equalAbsTol (rowConcat f r) (rowConcat g r) tol
      || equalAbsTol (negL (rowConcat f r)) (rowConcat g r) tol)
  else false

/-- Drop later pairs whose first component repeats the previous kept key
(`std::map` keeps the first insertion; on a stably sorted list this is
adjacent deduplication by key). -/
def dedupFstAux (a : Nat × Nat) : List (Nat × Nat) → List (Nat × Nat)
  | [] => []
  | c :: rest => if c.1 = a.1 then dedupFstAux a rest else c :: dedupFstAux c rest

/-- Deduplicate a key-sorted association list by key, keeping first. -/
def dedupFst : List (Nat × Nat) → List (Nat × Nat)
  | [] => []
  | a :: rest => a :: dedupFstAux a rest

/-- `permuteWithInverse(invPerm)`: rename every key through the inverse
permutation, reorder the slots ascending by new key (the source's
`std::map` of new key to old slot), move the blocks accordingly, keep `b`
and the model, and reset `firstNonzeroBlocks` to 0 everywhere. -/
def permuteWithInverse (f : JacobianFactor) (invPerm : Nat → Nat) : JacobianFactor :=
  let sourceSlots :=
    dedupFst (((List.range f.keys.length).map
      (fun j => (invPerm (f.keys.getD j 0), j))).mergeSort (fun a c => a.1 ≤ c.1))
  { keys := sourceSlots.map Prod.fst
    dims := sourceSlots.map (fun s => f.dims.getD s.2 0)
    rows := f.rows.map (fun row => sourceSlots.map (fun s => row.getD s.2 []))
    b := f.b
    model := f.model
    firstNonzeroBlocks := f.firstNonzeroBlocks.map (fun _ => 0) }

/-- Modelled from the spec: `VariableSlots` (gtsam/inference, not under
src/) — the sorted ascending union of the factors' keys. -/
def unionKeys (factors : List JacobianFactor) : List Nat :=
  ((factors.flatMap (fun f => f.keys)).mergeSort (fun a c => a ≤ c)).dedup

/-- Modelled from the spec: the slot of a variable within a factor's key
list (first occurrence), `none` when absent. -/
def idxOf? (v : Nat) : List Nat → Option Nat
  | [] => none
  | k :: rest => if k = v then some 0 else (idxOf? v rest).map (· + 1)

/-- Modelled from the spec: `VariableSlots` maps each variable of the union
to, per factor, the slot holding it (`none` plays the role of the
`numeric_limits<Index>::max()` sentinel for an absent variable). -/
def variableSlots (factors : List JacobianFactor) : List (Nat × List (Option Nat)) :=
  (unionKeys factors).map (fun v => (v, factors.map (fun g => idxOf? v g.keys)))

/-- A row-source record of `Combine`: the row's first nonzero variable used
as the sort key, the index of the factor it comes from, and its row there. -/
structure RowSrc where
  fnv : Nat
  factorI : Nat
  rowI : Nat
deriving DecidableEq, Inhabited

/-- The `_RowSource` entry built for row `r` of factor `i`: the first
nonzero variable is the key at `firstNonzeroBlocks_[r]`, or one past the
last key when the hint points at the `b` block. -/
def rowSrcOf (f : JacobianFactor) (i r : Nat) : RowSrc :=
  let fnb := f.firstNonzeroBlocks.getD r 0
  { fnv := if fnb < f.keys.length then f.keys.getD fnb 0 else f.keys.getLastD 0 + 1
    factorI := i
    rowI := r }

/-- All row sources, factor by factor and row by row (insertion order). -/
def rowSourcesU (factors : List JacobianFactor) : List RowSrc :=
  (List.range factors.length).flatMap (fun i =>
    (List.range (factors.getD i jfNull).rows.length).map
      (fun r => rowSrcOf (factors.getD i jfNull) i r))

/-- The row sources sorted ascending by first nonzero variable
(`std::sort` with `_RowSource::operator<`). -/
def rowSources (factors : List JacobianFactor) : List RowSrc :=
  (rowSourcesU factors).mergeSort (fun a c => a.fnv ≤ c.fnv)

/-- The release-build `countDims` inventory of one joint variable: the
dimension recorded is the one supplied by the first factor containing the
variable (the NDEBUG branch records it and breaks). -/
def firstDimOf : List JacobianFactor → List (Option Nat) → Nat
  | f :: _, some s :: _ => f.dims.getD s 0
  | _ :: fs, none :: rest => firstDimOf fs rest
  | _, _ => 0

/-- The sigma vector behind the factor's (dereferenced) noise model. -/
def modelSigmas (f : JacobianFactor) : Vec := (f.model.getD ⟨[], false⟩).sigmas

/-- Whether the factor's (dereferenced) noise model is constrained. -/
def modelConstrained (f : JacobianFactor) : Bool := (f.model.getD ⟨[], false⟩).constrained

/-- The block that `Combine` writes at joint slot `p` of the output row
sourced from `rs`: the source row's block when the variable is present and
the row reaches that column, otherwise zeros of the joint block's width. -/
def combineBlockFor (factors : List JacobianFactor) (rs : RowSrc)
    (p : Nat × List (Option Nat)) : Vec :=
  match p.2.getD rs.factorI none with
  | some sourceSlot =>
    let source := factors.getD rs.factorI jfNull
    if source.firstNonzeroBlocks.getD rs.rowI 0 ≤ sourceSlot then
      (source.rows.getD rs.rowI []).getD sourceSlot []
    else List.replicate (firstDimOf factors p.2) 0
  | none => List.replicate (firstDimOf factors p.2) 0

/-- One bounded while-loop step chain: advance `vp` while `vp < bound` and
the predicate holds, with enough fuel to cover `bound - vp` iterations. -/
def advLoop (p : Nat → Bool) (bound : Nat) : Nat → Nat → Nat
  | 0, vp => vp
  | fuel + 1, vp => if vp < bound && p vp then advLoop p bound fuel (vp + 1) else vp

/-- The while-loop `while (vp < bound && p vp) ++vp`. -/
def advanceWhile (p : Nat → Bool) (bound vp : Nat) : Nat := advLoop p bound (bound - vp) vp

/-- A monotone pointer carried across rows: each row advances the pointer
from its predecessor's final value and records the result. -/
def sweep {α : Type} (step : α → Nat → Nat) : List α → Nat → List Nat
  | [], _ => []
  | a :: rest, vp => step a vp :: sweep step rest (step a vp)

/-- `Combine(factors, variableSlots)` in release semantics: joint keys and
first-supplier block widths, rows sorted by first nonzero variable and
copied blockwise (zero-filling absent or unreached blocks), `b` and σ
copied row by row, the constrained flag or-ed over the sources, and the
joint staircase swept with a monotone slot pointer. -/
def Combine (factors : List JacobianFactor) (vs : List (Nat × List (Option Nat))) :
    JacobianFactor :=
  let rss := rowSources factors
  let keysC := vs.map Prod.fst
  { keys := keysC
    dims := vs.map (fun p => firstDimOf factors p.2)
    rows := rss.map (fun rs => vs.map (combineBlockFor factors rs))
    b := rss.map (fun rs => (factors.getD rs.factorI jfNull).b.getD rs.rowI 0)
    model := some
      ⟨rss.map (fun rs => (modelSigmas (factors.getD rs.factorI jfNull)).getD rs.rowI 0),
       factors.any modelConstrained⟩
    firstNonzeroBlocks :=
      sweep (fun rs vp =>
        advanceWhile (fun slot => decide (rs.fnv > keysC.getD slot 0)) vs.length vp) rss 0 }

/-- Modelled from the spec: the outcome of `QRColumnWise` (gtsam/linear/
NoiseModel, not under src/) — the in-place triangularised augmented matrix
and the returned post-QR noise model, whose dimension is the effective
rank; `eliminate` receives this outcome as an argument. -/
structure QRResult where
  matrix : List (List ℚ)
  sigmas : Vec
  constrained : Bool
deriving DecidableEq

/-- The Gaussian conditional extracted for one frontal variable: the keys
from the frontal one onward, its frontal count, the borrowed rows of the
triangularised matrix, and the borrowed σ slice. -/
structure GaussianConditionalM where
  keys : List Nat
  nrFrontals : Nat
  rows : List (List ℚ)
  sigmas : Vec
deriving DecidableEq

/-- The error `eliminate` can raise. -/
inductive ElimError where
  | singular (key : Nat)
deriving DecidableEq

/-- Column offset of block `p` (the block view's offset table). -/
def offE (dims : List Nat) (p : Nat) : Nat := (dims.take p).sum

/-- Zero the strictly-lower triangle of the first `r` rows, all columns. -/
def zeroLowerTri (m : List (List ℚ)) (r : Nat) : List (List ℚ) :=
  m.enum.map (fun p => p.2.enum.map (fun q => if q.1 < p.1 ∧ p.1 < r then 0 else q.2))

/-- Split a flat coefficient row into blocks of the given widths. -/
def splitBlocks (flat : Vec) : List Nat → List Vec
  | [] => []
  | d :: ds => flat.take d :: splitBlocks (flat.drop d) ds

/-- The `nrFrontals` conditionals emitted by `eliminate`: for frontal `j`,
the row window `[offset(j), offset(j)+dim(j))` of the triangularised
matrix starting at column offset `offset(j)`, with the matching σ slice
and the keys from `j` onward. -/
def mkConditionals (m : List (List ℚ)) (sig : Vec) (keys dims : List Nat)
    (k : Nat) : List GaussianConditionalM :=
  (List.range k).map (fun j =>
    let start := offE dims j
    let d := dims.getD j 0
    { keys := keys.drop j
      nrFrontals := 1
      rows := ((m.drop start).take d).map (fun row => row.drop start)
      sigmas := (sig.drop start).take d })

/-- `eliminate(nrFrontals)` given the QR outcome: zero the lower triangle,
fail as singular at the first key when the effective rank is below the
frontal dimension, otherwise emit the conditionals and rewrite the factor
as the trailing rows `[frontalDim, rank)` over the remaining keys, with
the σ slice `[frontalDim, rank)` and a freshly swept staircase. -/
def eliminate (f : JacobianFactor) (k : Nat) (qr : QRResult) :
    Except ElimError (List GaussianConditionalM × JacobianFactor) :=
  let fd := offE f.dims k
  let r := qr.sigmas.length
  let m := zeroLowerTri qr.matrix r
  if r < fd then Except.error (ElimError.singular (f.keys.headD 0))
  else
    let keysT := f.keys.drop k
    let dimsT := f.dims.drop k
    let window := (m.drop fd).take (r - fd)
    Except.ok (mkConditionals m qr.sigmas f.keys f.dims k,
      { keys := keysT
        dims := dimsT
        rows := window.map (fun row => splitBlocks (row.drop fd) dimsT)
        b := window.map (fun row => (row.drop fd).getD dimsT.sum 0)
        model := some ⟨(qr.sigmas.drop fd).take (r - fd), qr.constrained⟩
        firstNonzeroBlocks :=
          sweep (fun row vp =>
            advanceWhile (fun q => decide (offE dimsT (q + 1) ≤ row)) keysT.length vp)
            (List.range (r - fd)) 0 })

/-- A zero-valued clone of a VectorValues (`VectorValues::zero(x)`). -/
def zeroClone (x : Nat → Vec) : Nat → Vec := fun v => (x v).map (fun _ => (0 : ℚ))

/-- The factor-graph `transposeMultiplyAdd(fg, alpha, e, x)`: fold the
per-factor operation over the factors paired with their error slices. -/
def transposeMultiplyAddFG (fg : List JacobianFactor) (alpha : ℚ) (es : List Vec)
    (x : Nat → Vec) : Option (Nat → Vec) :=
  (fg.zip es).foldlM (fun acc p => transposeMultiplyAdd p.1 alpha p.2 acc) x

/-- The free function `gradient(fg, x)`: collect each factor's
`error_vector(x)` and accumulate them via `transposeMultiplyAdd` with
`alpha = 1` into a zero clone of `x`. -/
def gradientFG (fg : List JacobianFactor) (x : Nat → Vec) : Option (Nat → Vec) := do
  let es ← fg.mapM (fun f => error_vector f x)
  transposeMultiplyAddFG fg 1 es (zeroClone x)

/-- Mathematical row value `(A·x)ᵣ` of a factor row: the sum over the key
blocks of the block-times-subvector dot products. -/
def rowAx (keys : List Nat) (row : List Vec) (x : Nat → Vec) : ℚ :=
  ((List.range keys.length).map
    (fun j => dotQ (row.getD j []) (x (keys.getD j 0)))).sum

/-- Specification-side residual `A·x − b`, row by row. -/
def axMinusB (f : JacobianFactor) (x : Nat → Vec) : Vec :=
  (List.range f.rows.length).map
    (fun r => rowAx f.keys (f.rows.getD r []) x - f.b.getD r 0)

/-- Squared Euclidean norm. -/
def normSq (v : Vec) : ℚ := (v.map (fun a => a ^ 2)).sum

/-- Specification-side: the contribution of joint variable `v` to row `r`
of a factor — the dot product of the block holding `v` (when present)
against `x v`. -/
def slotContrib (f : JacobianFactor) (r : Nat) (x : Nat → Vec) (v : Nat) : ℚ :=
  match idxOf? v f.keys with
  | some j => dotQ ((f.rows.getD r []).getD j []) (x v)
  | none => 0

/-- Specification-side: the cost of one source row of `Combine`, read off
the factor and row a `RowSrc` names. -/
def srcCost (factors : List JacobianFactor) (x : Nat → Vec) (rs : RowSrc) : ℚ :=
  (1 / 2 : ℚ) * ((rowAx (factors.getD rs.factorI jfNull).keys
      ((factors.getD rs.factorI jfNull).rows.getD rs.rowI []) x
    - (factors.getD rs.factorI jfNull).b.getD rs.rowI 0)
    / (modelSigmas (factors.getD rs.factorI jfNull)).getD rs.rowI 0) ^ 2

/-- The doubly whitened residual `whiten(whiten(A·x − b))` that the code's
gradient actually propagates (one whitening from `error_vector`, one from
`transposeMultiplyAdd`). -/
def dwResid (f : JacobianFactor) (x : Nat → Vec) : Vec :=
  whitenV (modelSigmas f) (whitenV (modelSigmas f) (axMinusB f x))

/-- The part of `Aᵀ·resid` a single factor contributes at variable `v`,
accumulated slot by slot over the slots holding `v`. -/
def factorGradWith (resid : Vec) (f : JacobianFactor) (x : Nat → Vec) (v : Nat) : Vec :=
  (List.range f.keys.length).foldl
    (fun acc j => if f.keys.getD j 0 = v then addV acc (aTmulVec f j resid) else acc)
    (List.replicate (x v).length 0)

/-- Specification-side gradient with the doubly whitened residual: what the
source's `gradient` computes (see the C5 theorems). -/
def gradSpec (fg : List JacobianFactor) (x : Nat → Vec) (v : Nat) : Vec :=
  fg.foldl (fun acc f => addV acc (factorGradWith (dwResid f x) f x v))
    (List.replicate (x v).length 0)

/-- The claim's reading of the gradient: per variable, the sum over factors
of `Aⱼᵀ` times the raw residual `A·x − b` (no whitening). -/
def gradClaimed (fg : List JacobianFactor) (x : Nat → Vec) (v : Nat) : Vec :=
  fg.foldl (fun acc f => addV acc (factorGradWith (axMinusB f x) f x v))
    (List.replicate (x v).length 0)

/-- Structural well-formedness of a factor: a present noise model of row
dimension, matching `b` length, one width per key, rows of one block per
key with the declared widths, and distinct keys. -/
def WFf (f : JacobianFactor) : Prop :=
  f.model.isSome ∧ (modelSigmas f).length = f.rows.length ∧
  f.b.length = f.rows.length ∧ f.dims.length = f.keys.length ∧
  (∀ row ∈ f.rows, row.length = f.keys.length ∧
    ∀ j < f.keys.length, (row.getD j []).length = f.dims.getD j 0) ∧
  f.keys.Nodup

/-- The staircase hint is semantically valid: every block strictly left of
a row's first nonzero block is identically zero (the spec's reading of
`firstNonzeroBlocks` as the first column block that may be nonzero). -/
def staircaseValid (f : JacobianFactor) : Prop :=
  ∀ r < f.rows.length, ∀ j < f.firstNonzeroBlocks.getD r 0,
    ∀ a ∈ (f.rows.getD r []).getD j [], a = 0

/-- All factors agree on the dimension of every shared variable. -/
def dimsConsistent (factors : List JacobianFactor) : Prop :=
  ∀ fa ∈ factors, ∀ gb ∈ factors,
    ∀ j1 < fa.keys.length, ∀ j2 < gb.keys.length,
      fa.keys.getD j1 0 = gb.keys.getD j2 0 → fa.dims.getD j1 0 = gb.dims.getD j2 0

/-- The assignment supplies a vector of the declared dimension for every
variable of every factor. -/
def xConsistent (factors : List JacobianFactor) (x : Nat → Vec) : Prop :=
  ∀ fa ∈ factors, ∀ j < fa.keys.length,
    (x (fa.keys.getD j 0)).length = fa.dims.getD j 0

/-- The `firstNonzeroBlocks` invariant of the claims: one entry per row,
nondecreasing, every entry below the block count `|keys| + 1`. -/
def fnbInvariant (f : JacobianFactor) : Prop :=
  f.firstNonzeroBlocks.length = f.rows.length ∧
  List.Chain' (· ≤ ·) f.firstNonzeroBlocks ∧
  ∀ e ∈ f.firstNonzeroBlocks, e < f.keys.length + 1

instance (f : JacobianFactor) : Decidable (WFf f) := by
  unfold WFf; infer_instance

instance (f : JacobianFactor) : Decidable (staircaseValid f) := by
  unfold staircaseValid; infer_instance

instance (l : List JacobianFactor) : Decidable (dimsConsistent l) := by
  unfold dimsConsistent; infer_instance

instance (l : List JacobianFactor) (x : Nat → Vec) : Decidable (xConsistent l x) := by
  unfold xConsistent; infer_instance

instance (f : JacobianFactor) : Decidable (fnbInvariant f) := by
  unfold fnbInvariant; infer_instance

end GtsamJF

namespace GtsamJF

/-! Basic list toolkit shared by the claim proofs. -/

theorem getD_map_lt {α β : Type} (g : α → β) (l : List α) {i : Nat}
    (h : i < l.length) (d : α) (d2 : β) : (l.map g).getD i d2 = g (l.getD i d) := by
  rw [List.getD_eq_getElem?_getD, List.getElem?_map, List.getElem?_eq_getElem h,
    List.getD_eq_getElem l d h]
  rfl

theorem map_range_getD {α β : Type} (F : α → β) (d : α) :
    ∀ l : List α, (List.range l.length).map (fun j => F (l.getD j d)) = l.map F := by
  intro l
  induction l with
  | nil => rfl
  | cons a t ih =>
    rw [List.length_cons, List.range_succ_eq_map, List.map_cons, List.map_map]
    simp only [Function.comp_def, List.getD_cons_succ, List.getD_cons_zero]
    rw [List.map_cons]
    exact congrArg _ ih

theorem dotQ_zero_left : ∀ v w : Vec, (∀ a ∈ v, a = 0) → dotQ v w = 0
  | [], w, _ => by cases w <;> rfl
  | _ :: _, [], _ => rfl
  | a :: as, c :: cs, h => by
    have ha := h a (List.mem_cons_self ..)
    have ht := dotQ_zero_left as cs (fun y hy => h y (List.mem_cons_of_mem _ hy))
    simp [dotQ, ha, ht]

theorem dotQ_replicate_zero (n : Nat) (w : Vec) : dotQ (List.replicate n 0) w = 0 :=
  dotQ_zero_left _ w (fun _ ha => List.eq_of_mem_replicate ha)

theorem length_addV (a c : Vec) : (addV a c).length = min a.length c.length :=
  List.length_zipWith ..

theorem getD_addV {a c : Vec} {r : Nat} (ha : r < a.length) (hc : r < c.length) :
    (addV a c).getD r 0 = a.getD r 0 + c.getD r 0 := by
  rw [addV, List.getD_eq_getElem?_getD, List.getElem?_zipWith,
    List.getElem?_eq_getElem ha, List.getElem?_eq_getElem hc,
    List.getD_eq_getElem a 0 ha, List.getD_eq_getElem c 0 hc]
  rfl

/-! Claims C10, C9, C2, C3. -/

/-- Claim C10: `empty()` holds exactly when the factor has zero rows,
whatever the key list is; on an empty receiver, `equals` compares by
emptiness alone (keys are only compared when the receiver has rows), so
two empty factors with different key lists compare equal. -/
theorem c10_empty_equals :
    (∀ f : JacobianFactor, emptyF f = true ↔ f.rows.length = 0) ∧
    (∀ (f g : JacobianFactor) (tol : ℚ), emptyF f = true → equals f g tol = emptyF g) ∧
    (∀ (f g : JacobianFactor) (tol : ℚ), emptyF f = true → emptyF g = true →
      equals f g tol = true) := by
  refine ⟨fun f => ?_, fun f g tol hf => ?_, fun f g tol hf hg => ?_⟩
  · simp [emptyF, List.isEmpty_iff_length_eq_zero]
  · simp [equals, hf]
  · simp [equals, hf, hg]

/-- Witness for C10 at two concrete empty factors with different keys. -/
theorem c10_empty_equals_witness :
    equals ⟨[3], [1], [], [], none, []⟩ ⟨[7], [2], [], [], none, []⟩ 0 = true :=
  c10_empty_equals.2.2 ⟨[3], [1], [], [], none, []⟩ ⟨[7], [2], [], [], none, []⟩ 0 rfl rfl

/-- Claim C9 (amended): the b-only constructor leaves the model null, so
`error_vector`, `error` (on a factor with rows), `operator*`,
`transposeMultiplyAdd` and `whiten` — each of which dereferences the
model — all fail on a factor fresh from that constructor with non-empty
`b`; `sparse`, however, only dereferences the model inside its per-key
per-row loops, so on the keyless b-only factor it succeeds and returns
empty triples. -/
theorem c9_model_preconditions :
    (∀ bv : Vec, (jfB bv).model = none) ∧
    (∀ (bv : Vec) (x : Nat → Vec) (alpha : ℚ) (e : Vec), bv ≠ [] →
      error_vector (jfB bv) x = none ∧ error (jfB bv) x = none ∧
      mulF (jfB bv) x = none ∧ transposeMultiplyAdd (jfB bv) alpha e x = none ∧
      whiten (jfB bv) = none) ∧
    (∀ (f : JacobianFactor) (x : Nat → Vec), error_vector f x = none ↔ f.model = none) ∧
    (∀ f : JacobianFactor, whiten f = none ↔ f.model = none) ∧
    (∀ (f : JacobianFactor) (alpha : ℚ) (e : Vec) (x : Nat → Vec),
      transposeMultiplyAdd f alpha e x = none ↔ f.model = none) ∧
    (∀ (f : JacobianFactor) (x : Nat → Vec), f.rows ≠ [] →
      (error f x = none ↔ f.model = none)) ∧
    (∀ (f : JacobianFactor) (x : Nat → Vec), f.rows ≠ [] →
      (mulF f x = none ↔ f.model = none)) ∧
    (∀ (bv : Vec) (cols : Nat → Option Nat), sparse (jfB bv) cols = some ([], [], [])) := by
  have hev : ∀ (f : JacobianFactor) (x : Nat → Vec),
      error_vector f x = none ↔ f.model = none := by
    intro f x; simp [error_vector]
  have hwh : ∀ f : JacobianFactor, whiten f = none ↔ f.model = none := by
    intro f; simp [whiten]
  have htma : ∀ (f : JacobianFactor) (alpha : ℚ) (e : Vec) (x : Nat → Vec),
      transposeMultiplyAdd f alpha e x = none ↔ f.model = none := by
    intro f alpha e x; simp [transposeMultiplyAdd]
  have herr : ∀ (f : JacobianFactor) (x : Nat → Vec), f.rows ≠ [] →
      (error f x = none ↔ f.model = none) := by
    intro f x hf
    have hne : f.rows.isEmpty = false := by simpa [List.isEmpty_iff] using hf
    simp [error, hne, hev f x]
  have hmul : ∀ (f : JacobianFactor) (x : Nat → Vec), f.rows ≠ [] →
      (mulF f x = none ↔ f.model = none) := by
    intro f x hf
    have hne : f.rows.isEmpty = false := by simpa [List.isEmpty_iff] using hf
    simp [mulF, hne]
  refine ⟨fun _ => rfl, fun bv x alpha e hbv => ?_, hev, hwh, htma, herr, hmul,
    fun bv cols => rfl⟩
  have hrows : (jfB bv).rows ≠ [] := by
    intro h
    have hlen := congrArg List.length h
    simp only [jfB, List.length_replicate, List.length_nil] at hlen
    exact hbv (List.length_eq_zero.mp hlen)
  exact ⟨(hev _ x).mpr rfl, (herr _ x hrows).mpr rfl, (hmul _ x hrows).mpr rfl,
    (htma _ alpha e x).mpr rfl, (hwh _).mpr rfl⟩

/-- Witness for C9 at `b = [1]`. -/
theorem c9_model_preconditions_witness :
    error (jfB [1]) (fun _ => []) = none ∧ whiten (jfB [1]) = none ∧
    sparse (jfB [1]) (fun _ => none) = some ([], [], []) :=
  ⟨(c9_model_preconditions.2.1 [1] (fun _ => []) 0 [] (by simp)).2.1,
   (c9_model_preconditions.2.1 [1] (fun _ => []) 0 [] (by simp)).2.2.2.2,
   c9_model_preconditions.2.2.2.2.2.2.2 [1] (fun _ => none)⟩

/-- Counterexample to C9 as stated: the claim lists `sparse` among the
operations whose noise-model precondition the b-only factor violates, but
`sparse` on that (keyless) factor never dereferences the model and
succeeds. -/
theorem c9_counterexample :
    (jfB [1]).model = none ∧ sparse (jfB [1]) (fun _ => none) = some ([], [], []) :=
  ⟨rfl, rfl⟩

/-- Claim C2: `eliminate(k)` fails with a Singular error naming `keys[0]`
exactly when the QR effective rank is below `frontalDim = Σ dim(keys[j]),
j < k`; at rank at least `frontalDim` it proceeds and returns the
conditionals and trailing factor. -/
theorem c2_singular_check (f : JacobianFactor) (k : Nat) (qr : QRResult)
    (hk : k ≤ f.keys.length) :
    (eliminate f k qr = Except.error (ElimError.singular (f.keys.headD 0)) ↔
      qr.sigmas.length < (f.dims.take k).sum) ∧
    (qr.sigmas.length < (f.dims.take k).sum → f.keys ≠ []) ∧
    ((f.dims.take k).sum ≤ qr.sigmas.length →
      ∃ out, eliminate f k qr = Except.ok out) := by
  refine ⟨?_, fun hlt hkeys => ?_, fun hge => ?_⟩
  · by_cases hlt : qr.sigmas.length < (f.dims.take k).sum
    · simp [eliminate, offE, hlt]
    · simp [eliminate, offE, hlt]
  · rw [hkeys] at hk
    have : k = 0 := Nat.le_zero.mp hk
    rw [this] at hlt
    simp at hlt
  · have hnl : ¬ qr.sigmas.length < (f.dims.take k).sum := Nat.not_lt.mpr hge
    cases heq : eliminate f k qr with
    | error e =>
      exfalso
      simp only [eliminate, offE] at heq
      rw [if_neg hnl] at heq
      exact absurd heq (by simp)
    | ok out => exact ⟨out, rfl⟩

/-- Witness for C2: the spec's singular scenario (rank 1, frontal
dimension 2) fails at key 0, and the unary scenario (rank 2) succeeds. -/
theorem c2_singular_check_witness :
    eliminate (mkJacobianFactor [(0, ⟨2, [[1, 0], [1, 0]]⟩)] [1, 1] (some ⟨[1, 1], false⟩))
        1 ⟨[[1, 0, 1], [0, 0, 0]], [1], false⟩ =
      Except.error (ElimError.singular 0) ∧
    ∃ out,
      eliminate (mkJacobianFactor [(0, ⟨2, [[1, 0], [0, 1]]⟩)] [3, 4] (some ⟨[1, 1], false⟩))
        1 ⟨[[1, 0, 3], [0, 1, 4]], [1, 1], false⟩ = Except.ok out := by
  constructor
  · have h := (c2_singular_check
      (mkJacobianFactor [(0, ⟨2, [[1, 0], [1, 0]]⟩)] [1, 1] (some ⟨[1, 1], false⟩))
      1 ⟨[[1, 0, 1], [0, 0, 0]], [1], false⟩ (by simp [mkJacobianFactor])).1.mpr
      (by simp [mkJacobianFactor])
    simpa [mkJacobianFactor] using h
  · exact (c2_singular_check
      (mkJacobianFactor [(0, ⟨2, [[1, 0], [0, 1]]⟩)] [3, 4] (some ⟨[1, 1], false⟩))
      1 ⟨[[1, 0, 3], [0, 1, 4]], [1, 1], false⟩ (by simp [mkJacobianFactor])).2.2
      (by simp [mkJacobianFactor])

/-- Claim C3 (code bug): in release semantics `countDims` records the first
supplier's dimension and skips the consistency check, so `Combine` on two
factors that disagree on a shared variable's dimension refuses nothing: it
returns a joint factor (here with declared width 1 for variable 0 but a
copied row of width 2) instead of raising an error. -/
theorem c3_release_no_refusal :
    ¬ dimsConsistent
        [mkJacobianFactor [(0, ⟨1, [[1]]⟩)] [0] (some ⟨[1], false⟩),
         mkJacobianFactor [(0, ⟨2, [[1, 0]]⟩)] [1] (some ⟨[1], false⟩)] ∧
    Combine
        [mkJacobianFactor [(0, ⟨1, [[1]]⟩)] [0] (some ⟨[1], false⟩),
         mkJacobianFactor [(0, ⟨2, [[1, 0]]⟩)] [1] (some ⟨[1], false⟩)]
        (variableSlots
          [mkJacobianFactor [(0, ⟨1, [[1]]⟩)] [0] (some ⟨[1], false⟩),
           mkJacobianFactor [(0, ⟨2, [[1, 0]]⟩)] [1] (some ⟨[1], false⟩)]) =
      ⟨[0], [1], [[[1]], [[1, 0]]], [0, 1], some ⟨[1, 1], false⟩, [0, 0]⟩ := by
  constructor
  · with_unfolding_all decide
  · with_unfolding_all rfl

end GtsamJF

namespace GtsamJF

/-! Claim C7: whiten is idempotent. -/

theorem zipWith_replicate_left {α β γ : Type} (g : α → β → γ) (c : α) :
    ∀ l : List β, List.zipWith g (List.replicate l.length c) l = l.map (g c)
  | [] => rfl
  | _ :: t => by
    simp only [List.length_cons, List.replicate_succ, List.zipWith_cons_cons,
      List.map_cons]
    exact congrArg _ (zipWith_replicate_left g c t)

/-- Claim C7: `whiten()` is idempotent — whitening the whitened copy
changes nothing, entry for entry — and the whitened copy's noise model is
the unit model of the factor's row dimension.  (The source `whiten()`
operates on a copy, so the original factor is untouched; in this
functional embedding that is inherent.) -/
theorem c7_whiten_idempotent (f : JacobianFactor) (nm : NoiseModelM)
    (hm : f.model = some nm) (hlen : nm.sigmas.length = f.rows.length)
    (hb : f.b.length = f.rows.length) (hpos : ∀ s ∈ nm.sigmas, s ≠ 0) :
    ∃ g, whiten f = some g ∧ whiten g = some g ∧
      g.model = some ⟨List.replicate f.rows.length 1, false⟩ := by
  refine ⟨{ f with
      rows := List.zipWith (fun s row => row.map (fun blk => blk.map (fun a => a / s)))
        nm.sigmas f.rows
      b := List.zipWith (fun s a => a / s) nm.sigmas f.b
      model := some ⟨List.replicate nm.sigmas.length 1, false⟩ }, ?_, ?_, ?_⟩
  · rw [whiten, hm]; rfl
  · have hrlen : (List.zipWith
        (fun s row => row.map (fun blk => blk.map (fun a => a / s))) nm.sigmas f.rows).length
        = nm.sigmas.length := by
      rw [List.length_zipWith, hlen, min_self]
    have hblen : (List.zipWith (fun s a => a / s) nm.sigmas f.b).length
        = nm.sigmas.length := by
      rw [List.length_zipWith, hlen, hb, min_self]
    simp only [whiten, Option.map_some']
    refine congrArg some ?_
    have hrows : List.zipWith
        (fun s row => row.map (fun blk => blk.map (fun a => a / s)))
        (List.replicate nm.sigmas.length (1 : ℚ))
        (List.zipWith (fun s row => row.map (fun blk => blk.map (fun a => a / s)))
          nm.sigmas f.rows)
        = List.zipWith (fun s row => row.map (fun blk => blk.map (fun a => a / s)))
          nm.sigmas f.rows := by
      rw [← hrlen, zipWith_replicate_left]
      simp
    have hbv : List.zipWith (fun s a => a / s)
        (List.replicate nm.sigmas.length (1 : ℚ))
        (List.zipWith (fun s a => a / s) nm.sigmas f.b)
        = List.zipWith (fun s a => a / s) nm.sigmas f.b := by
      rw [← hblen, zipWith_replicate_left]
      simp
    simp [hrows, hbv]
  · rw [hlen]

/-- Witness for C7 at a concrete 2-row factor with σ = (2, 4). -/
theorem c7_whiten_idempotent_witness :
    ∃ g, whiten (mkJacobianFactor [(0, ⟨1, [[1], [2]]⟩)] [3, 4] (some ⟨[2, 4], false⟩))
        = some g ∧
      whiten g = some g ∧
      g.model = some ⟨List.replicate
        (mkJacobianFactor [(0, ⟨1, [[1], [2]]⟩)] [3, 4] (some ⟨[2, 4], false⟩)).rows.length
        1, false⟩ :=
  c7_whiten_idempotent
    (mkJacobianFactor [(0, ⟨1, [[1], [2]]⟩)] [3, 4] (some ⟨[2, 4], false⟩))
    ⟨[2, 4], false⟩ rfl (by with_unfolding_all rfl) (by with_unfolding_all rfl)
    (by with_unfolding_all decide)

end GtsamJF

namespace GtsamJF

/-! Claim C8: properties of equals. -/

theorem forall_lt_succ_iff {P : Nat → Prop} {n : Nat} :
    (∀ i < n + 1, P i) ↔ P 0 ∧ ∀ i < n, P (i + 1) := by
  constructor
  · exact fun h => ⟨h 0 (Nat.succ_pos n), fun i hi => h (i + 1) (Nat.succ_lt_succ hi)⟩
  · rintro ⟨h0, hs⟩ i hi
    cases i with
    | zero => exact h0
    | succ j => exact hs j (Nat.lt_of_succ_lt_succ hi)

theorem equalAbsTol_cons (u w : ℚ) (as cs : Vec) (tol : ℚ) :
    equalAbsTol (u :: as) (w :: cs) tol
      = (decide (|u - w| ≤ tol) && equalAbsTol as cs tol) := by
  rw [Bool.eq_iff_iff]
  simp only [equalAbsTol, List.length_cons, List.zipWith_cons_cons, List.all_cons,
    Bool.and_eq_true, beq_iff_eq, Nat.add_right_cancel_iff, id_eq, decide_eq_true_eq,
    List.all_eq_true]
  tauto

theorem equalAbsTol_iff : ∀ (a c : Vec) (tol : ℚ),
    equalAbsTol a c tol = true ↔
      (a.length = c.length ∧ ∀ i < a.length, |a.getD i 0 - c.getD i 0| ≤ tol)
  | [], [], tol => by simp [equalAbsTol]
  | [], w :: cs, tol => by simp [equalAbsTol]
  | u :: as, [], tol => by simp [equalAbsTol]
  | u :: as, w :: cs, tol => by
    rw [equalAbsTol_cons, Bool.and_eq_true, decide_eq_true_eq, equalAbsTol_iff as cs tol]
    simp only [List.length_cons, forall_lt_succ_iff, List.getD_cons_zero,
      List.getD_cons_succ, Nat.add_right_cancel_iff]
    tauto

theorem equalAbsTol_refl (a : Vec) (tol : ℚ) (h : 0 ≤ tol) :
    equalAbsTol a a tol = true := by
  rw [equalAbsTol_iff]
  exact ⟨rfl, fun i _ => by simpa using h⟩

theorem equalAbsTol_symm (a c : Vec) (tol : ℚ) :
    equalAbsTol a c tol = equalAbsTol c a tol := by
  rw [Bool.eq_iff_iff, equalAbsTol_iff, equalAbsTol_iff]
  constructor
  · rintro ⟨hlen, hall⟩
    exact ⟨hlen.symm, fun i hi => by rw [abs_sub_comm]; exact hall i (hlen ▸ hi)⟩
  · rintro ⟨hlen, hall⟩
    exact ⟨hlen.symm, fun i hi => by rw [abs_sub_comm]; exact hall i (hlen ▸ hi)⟩

theorem length_negL (v : Vec) : (negL v).length = v.length := List.length_map ..

theorem getD_negL (v : Vec) {i : Nat} (h : i < v.length) :
    (negL v).getD i 0 = -(v.getD i 0) := getD_map_lt Neg.neg v h 0 0

theorem equalAbsTol_neg_swap (a c : Vec) (tol : ℚ) :
    equalAbsTol (negL a) c tol = equalAbsTol (negL c) a tol := by
  rw [Bool.eq_iff_iff, equalAbsTol_iff, equalAbsTol_iff, length_negL, length_negL]
  have key : ∀ (u w : Vec), u.length = w.length →
      (∀ i < u.length, |(negL u).getD i 0 - w.getD i 0| ≤ tol) →
      ∀ i < w.length, |(negL w).getD i 0 - u.getD i 0| ≤ tol := by
    intro u w hlen hall i hi
    have hiu : i < u.length := hlen ▸ hi
    have := hall i hiu
    rw [getD_negL u hiu] at this
    rw [getD_negL w hi]
    calc |(-w.getD i 0) - u.getD i 0| = |(-u.getD i 0) - w.getD i 0| := by ring_nf
    _ ≤ tol := this
  constructor
  · rintro ⟨hlen, hall⟩
    exact ⟨hlen.symm, key a c hlen hall⟩
  · rintro ⟨hlen, hall⟩
    exact ⟨hlen.symm, key c a hlen hall⟩

/-- Claim C8: `equals` is reflexive (nonnegative tolerance) and symmetric
(given the equal row counts its own debug assertion demands), accepts rows
equal to plus-or-minus the corresponding row, and never consults the noise
model, so factors differing only in σ compare equal. -/
theorem c8_equals_properties :
    (∀ (f : JacobianFactor) (tol : ℚ), 0 ≤ tol → equals f f tol = true) ∧
    (∀ (f g : JacobianFactor) (tol : ℚ), f.rows.length = g.rows.length →
      equals f g tol = equals g f tol) ∧
    (∀ (f g : JacobianFactor) (tol : ℚ), 0 ≤ tol → f.keys = g.keys →
      (f.rows.length = 0 → g.rows.length = 0) →
      (∀ r < f.rows.length,
        rowConcat g r = rowConcat f r ∨ rowConcat g r = negL (rowConcat f r)) →
      equals f g tol = true) ∧
    (∀ (f g : JacobianFactor) (m1 m2 : Option NoiseModelM) (tol : ℚ),
      equals { f with model := m1 } { g with model := m2 } tol = equals f g tol) := by
  refine ⟨fun f tol h => ?_, fun f g tol hlen => ?_, fun f g tol htol hk h0 hrows => ?_,
    fun f g m1 m2 tol => rfl⟩
  · by_cases he : emptyF f = true
    · rw [equals, if_pos he]; exact he
    · rw [equals, if_neg he, if_pos rfl, List.all_eq_true]
      intro r _
      rw [Bool.or_eq_true]
      exact Or.inl (equalAbsTol_refl _ tol h)
  · have hef : emptyF f = emptyF g := by
      rw [Bool.eq_iff_iff]
      simp only [emptyF, List.isEmpty_iff_length_eq_zero, hlen]
    by_cases he : emptyF f = true
    · rw [equals, equals, if_pos he, if_pos (hef ▸ he)]
      exact hef.symm
    · have heg : ¬ emptyF g = true := fun hg => he (hef.trans hg)
      rw [equals, equals, if_neg he, if_neg heg]
      by_cases hkk : f.keys = g.keys
      · rw [if_pos hkk, if_pos hkk.symm, hlen, Bool.eq_iff_iff]
        simp only [List.all_eq_true, List.mem_range]
        constructor
        · intro hall r hr
          have hrow := hall r hr
          rw [Bool.or_eq_true] at hrow ⊢
          rcases hrow with h1 | h2
          · exact Or.inl ((equalAbsTol_symm _ _ tol) ▸ h1)
          · exact Or.inr ((equalAbsTol_neg_swap _ _ tol) ▸ h2)
        · intro hall r hr
          have hrow := hall r hr
          rw [Bool.or_eq_true] at hrow ⊢
          rcases hrow with h1 | h2
          · exact Or.inl ((equalAbsTol_symm _ _ tol) ▸ h1)
          · exact Or.inr ((equalAbsTol_neg_swap _ _ tol) ▸ h2)
      · rw [if_neg hkk, if_neg (fun h => hkk h.symm)]
  · by_cases he : emptyF f = true
    · rw [equals, if_pos he]
      simp only [emptyF, List.isEmpty_iff_length_eq_zero] at he ⊢
      exact h0 he
    · rw [equals, if_neg he, if_pos hk, List.all_eq_true]
      intro r hr
      rw [List.mem_range] at hr
      rw [Bool.or_eq_true]
      rcases hrows r hr with h1 | h2
      · exact Or.inl (h1 ▸ equalAbsTol_refl _ tol htol)
      · exact Or.inr (h2 ▸ equalAbsTol_refl _ tol htol)

/-- Witness for C8: two concrete one-key factors whose rows differ by a
row sign flip and whose σ vectors differ compare equal. -/
theorem c8_equals_properties_witness :
    equals ⟨[0], [1], [[[1]], [[2]]], [3, 4], some ⟨[1, 1], false⟩, [0, 0]⟩
      ⟨[0], [1], [[[-1]], [[2]]], [-3, 4], some ⟨[5, 5], true⟩, [0, 0]⟩ 0 = true :=
  c8_equals_properties.2.2.1
    ⟨[0], [1], [[[1]], [[2]]], [3, 4], some ⟨[1, 1], false⟩, [0, 0]⟩
    ⟨[0], [1], [[[-1]], [[2]]], [-3, 4], some ⟨[5, 5], true⟩, [0, 0]⟩ 0
    le_rfl rfl (by simp) (by with_unfolding_all decide)

end GtsamJF

namespace GtsamJF

/-! Claim C6: the firstNonzeroBlocks invariant. -/

theorem le_advLoop (p : Nat → Bool) (bound : Nat) :
    ∀ fuel vp, vp ≤ advLoop p bound fuel vp
  | 0, vp => le_rfl
  | fuel + 1, vp => by
    simp only [advLoop]
    split
    · exact le_trans (Nat.le_succ vp) (le_advLoop p bound fuel (vp + 1))
    · exact le_rfl

theorem advLoop_le_bound (p : Nat → Bool) (bound : Nat) :
    ∀ fuel vp, vp ≤ bound → advLoop p bound fuel vp ≤ bound
  | 0, _, h => h
  | fuel + 1, vp, h => by
    simp only [advLoop]
    split
    next hc =>
      rw [Bool.and_eq_true, decide_eq_true_eq] at hc
      exact advLoop_le_bound p bound fuel (vp + 1) (Nat.succ_le_of_lt hc.1)
    next => exact h

theorem le_advanceWhile (p : Nat → Bool) (bound vp : Nat) :
    vp ≤ advanceWhile p bound vp := le_advLoop p bound (bound - vp) vp

theorem advanceWhile_le_bound (p : Nat → Bool) (bound vp : Nat) (h : vp ≤ bound) :
    advanceWhile p bound vp ≤ bound := advLoop_le_bound p bound (bound - vp) vp h

theorem sweep_length {α : Type} (step : α → Nat → Nat) :
    ∀ (l : List α) (s : Nat), (sweep step l s).length = l.length
  | [], _ => rfl
  | _ :: rest, s => by simp [sweep, sweep_length step rest]

theorem sweep_chain {α : Type} (step : α → Nat → Nat)
    (hstep : ∀ a vp, vp ≤ step a vp) :
    ∀ (l : List α) (s : Nat), List.Chain' (· ≤ ·) (sweep step l s)
  | [], _ => List.chain'_nil
  | a :: rest, s => by
    simp only [sweep]
    rw [List.chain'_cons']
    refine ⟨?_, sweep_chain step hstep rest (step a s)⟩
    intro y hy
    cases rest with
    | nil => simp [sweep] at hy
    | cons c r2 =>
      simp only [sweep, List.head?_cons, Option.mem_def, Option.some.injEq] at hy
      rw [← hy]
      exact hstep c (step a s)

theorem sweep_mem_le {α : Type} (step : α → Nat → Nat) (bound : Nat)
    (hstep : ∀ a vp, vp ≤ bound → step a vp ≤ bound) :
    ∀ (l : List α) (s : Nat), s ≤ bound → ∀ e ∈ sweep step l s, e ≤ bound
  | [], _, _, e, he => by simp [sweep] at he
  | a :: rest, s, hs, e, he => by
    simp only [sweep, List.mem_cons] at he
    rcases he with rfl | he
    · exact hstep a s hs
    · exact sweep_mem_le step bound hstep rest (step a s) (hstep a s hs) e he

theorem chain_le_replicate_zero : ∀ n : Nat, List.Chain' (· ≤ ·) (List.replicate n (0 : Nat))
  | 0 => List.chain'_nil
  | n + 1 => by
    rw [List.replicate_succ, List.chain'_cons']
    refine ⟨?_, chain_le_replicate_zero n⟩
    intro y hy
    cases n with
    | zero => simp at hy
    | succ n2 =>
      rw [List.replicate_succ, List.head?_cons, Option.mem_def, Option.some.injEq] at hy
      omega

theorem fnbInvariant_of_zeros (f : JacobianFactor)
    (h : f.firstNonzeroBlocks = List.replicate f.rows.length 0) : fnbInvariant f := by
  refine ⟨by rw [h, List.length_replicate], by rw [h]; exact chain_le_replicate_zero _, ?_⟩
  intro e he
  rw [h] at he
  rw [List.eq_of_mem_replicate he]
  exact Nat.succ_pos _

/-- Claim C6: after the constructors and after each mutating operation
(`Combine`, `eliminate`, `permuteWithInverse`) the factor's
`firstNonzeroBlocks` has one entry per row, is nondecreasing, and every
entry is below the number of blocks `|keys| + 1`. -/
theorem c6_fnb_invariant :
    (∀ (terms : List (Nat × MatM)) (bIn : Vec) (model : Option NoiseModelM),
      fnbInvariant (mkJacobianFactor terms bIn model)) ∧
    (∀ bIn : Vec, fnbInvariant (jfB bIn)) ∧
    fnbInvariant jfNull ∧
    (∀ (f : JacobianFactor) (ip : Nat → Nat),
      f.firstNonzeroBlocks.length = f.rows.length →
      fnbInvariant (permuteWithInverse f ip)) ∧
    (∀ (factors : List JacobianFactor) (vs : List (Nat × List (Option Nat))),
      fnbInvariant (Combine factors vs)) ∧
    (∀ (f : JacobianFactor) (k : Nat) (qr : QRResult)
      (conds : List GaussianConditionalM) (ft : JacobianFactor),
      eliminate f k qr = Except.ok (conds, ft) →
      qr.sigmas.length ≤ qr.matrix.length →
      fnbInvariant ft) := by
  refine ⟨fun terms bIn model => ?_, fun bIn => ?_, ?_, fun f ip hlen => ?_,
    fun factors vs => ?_, fun f k qr conds ft heq hqr => ?_⟩
  · exact fnbInvariant_of_zeros _ (by simp [mkJacobianFactor])
  · exact fnbInvariant_of_zeros _ (by simp [jfB])
  · exact fnbInvariant_of_zeros _ rfl
  · refine fnbInvariant_of_zeros _ ?_
    show f.firstNonzeroBlocks.map (fun _ => 0)
        = List.replicate (f.rows.map _).length 0
    rw [List.map_const', List.length_map, hlen]
  · refine ⟨?_, ?_, ?_⟩
    · show (sweep _ (rowSources factors) 0).length = ((rowSources factors).map _).length
      rw [sweep_length, List.length_map]
    · exact sweep_chain _ (fun a vp => le_advanceWhile _ _ vp) _ 0
    · intro e he
      simp only [Combine] at he
      have hb : e ≤ vs.length :=
        sweep_mem_le _ vs.length
          (fun a vp hvp => advanceWhile_le_bound _ _ vp hvp) _ 0 (Nat.zero_le _) e he
      have hkl : (Combine factors vs).keys.length = vs.length := List.length_map ..
      omega
  · simp only [eliminate] at heq
    split at heq
    · exact absurd heq (by simp)
    next hnl =>
      rw [Except.ok.injEq, Prod.mk.injEq] at heq
      rw [← heq.2]
      set fd := offE f.dims k with hfd
      have hwl : (List.take (qr.sigmas.length - fd)
          (List.drop fd (zeroLowerTri qr.matrix qr.sigmas.length))).length
          = qr.sigmas.length - fd := by
        rw [List.length_take, List.length_drop]
        have hzl : (zeroLowerTri qr.matrix qr.sigmas.length).length = qr.matrix.length := by
          simp [zeroLowerTri]
        rw [hzl]
        omega
      refine ⟨?_, ?_, ?_⟩
      · show (sweep _ (List.range (qr.sigmas.length - fd)) 0).length = _
        rw [sweep_length, List.length_range, List.length_map, hwl]
      · exact sweep_chain _ (fun a vp => le_advanceWhile _ _ vp) _ 0
      · intro e he
        have hb : e ≤ (f.keys.drop k).length :=
          sweep_mem_le _ _ (fun a vp hvp => advanceWhile_le_bound _ _ vp hvp) _ 0
            (Nat.zero_le _) e he
        show e < (f.keys.drop k).length + 1
        omega

/-- Witness for C6 at the permutation of a concrete binary factor and at a
concrete elimination. -/
theorem c6_fnb_invariant_witness :
    fnbInvariant (permuteWithInverse
      (mkJacobianFactor [(5, ⟨1, [[1]]⟩), (2, ⟨1, [[2]]⟩)] [0] (some ⟨[1], false⟩))
      (fun v => if v = 5 then 1 else 0)) ∧
    fnbInvariant ⟨[], [], [], [], some ⟨[], false⟩, []⟩ :=
  ⟨c6_fnb_invariant.2.2.2.1
      (mkJacobianFactor [(5, ⟨1, [[1]]⟩), (2, ⟨1, [[2]]⟩)] [0] (some ⟨[1], false⟩))
      (fun v => if v = 5 then 1 else 0) (by with_unfolding_all rfl),
   c6_fnb_invariant.2.2.2.2.2
      (mkJacobianFactor [(0, ⟨2, [[1, 0], [0, 1]]⟩)] [3, 4] (some ⟨[1, 1], false⟩)) 1
      ⟨[[1, 0, 3], [0, 1, 4]], [1, 1], false⟩ _ _ (by with_unfolding_all rfl)
      (by with_unfolding_all decide)⟩

end GtsamJF

namespace GtsamJF

/-! Claim C4: the error formula.  The fold characterisation proved here is
also the backbone of the C1 and C5 proofs. -/

theorem length_blockMulVec (f : JacobianFactor) (pos : Nat) (v : Vec) :
    (blockMulVec f pos v).length = f.rows.length := List.length_map ..

theorem fold_addV_blockMul (f : JacobianFactor) (x : Nat → Vec) :
    ∀ (ps : List Nat) (e0 : Vec), e0.length = f.rows.length →
      (ps.foldl (fun e pos => addV e (blockMulVec f pos (x (f.keys.getD pos 0)))) e0).length
          = f.rows.length ∧
      ∀ r < f.rows.length,
        (ps.foldl (fun e pos => addV e (blockMulVec f pos (x (f.keys.getD pos 0)))) e0).getD r 0
          = e0.getD r 0 + (ps.map (fun pos =>
              dotQ ((f.rows.getD r []).getD pos []) (x (f.keys.getD pos 0)))).sum
  | [], e0, h0 => ⟨h0, fun r _ => by simp⟩
  | p :: ps, e0, h0 => by
    have h1 : (addV e0 (blockMulVec f p (x (f.keys.getD p 0)))).length = f.rows.length := by
      rw [length_addV, h0, length_blockMulVec, min_self]
    obtain ⟨ihl, ihg⟩ := fold_addV_blockMul f x ps
      (addV e0 (blockMulVec f p (x (f.keys.getD p 0)))) h1
    refine ⟨ihl, fun r hr => ?_⟩
    rw [List.foldl_cons]
    rw [ihg r hr]
    have hadd : (addV e0 (blockMulVec f p (x (f.keys.getD p 0)))).getD r 0
        = e0.getD r 0 + dotQ ((f.rows.getD r []).getD p []) (x (f.keys.getD p 0)) := by
      rw [getD_addV (h0 ▸ hr) ((length_blockMulVec f p _) ▸ hr)]
      rw [blockMulVec, getD_map_lt _ f.rows hr [] 0]
    rw [hadd, List.map_cons, List.sum_cons]
    ring

theorem unweighted_error_spec (f : JacobianFactor) (x : Nat → Vec)
    (hb : f.b.length = f.rows.length) :
    (unweighted_error f x).length = f.rows.length ∧
    ∀ r < f.rows.length, (unweighted_error f x).getD r 0
      = rowAx f.keys (f.rows.getD r []) x - f.b.getD r 0 := by
  by_cases hE : f.rows.isEmpty
  · have hm : f.rows.length = 0 := by simpa [List.isEmpty_iff_length_eq_zero] using hE
    refine ⟨?_, fun r hr => absurd hr (by omega)⟩
    simp [unweighted_error, hE, hb, hm]
  · have hlb : (f.b.map Neg.neg).length = f.rows.length := by
      rw [List.length_map, hb]
    obtain ⟨hl, hg⟩ := fold_addV_blockMul f x (List.range f.keys.length)
      (f.b.map Neg.neg) hlb
    simp only [unweighted_error]
    rw [if_neg hE]
    refine ⟨hl, fun r hr => ?_⟩
    rw [hg r hr, getD_map_lt Neg.neg f.b (hb ▸ hr) 0 0, rowAx]
    ring

theorem unweighted_error_eq_axMinusB (f : JacobianFactor) (x : Nat → Vec)
    (hb : f.b.length = f.rows.length) : unweighted_error f x = axMinusB f x := by
  obtain ⟨hl, hg⟩ := unweighted_error_spec f x hb
  have hl2 : (axMinusB f x).length = f.rows.length := by
    rw [axMinusB, List.length_map, List.length_range]
  apply List.ext_get (by rw [hl, hl2])
  intro n h1 h2
  have hn : n < f.rows.length := hl ▸ h1
  rw [List.get_eq_getElem, List.get_eq_getElem,
    ← List.getD_eq_getElem _ 0 h1, ← List.getD_eq_getElem _ 0 h2, hg n hn, axMinusB,
    getD_map_lt _ (List.range f.rows.length) (by simpa using hn) 0 0]
  have hrg : (List.range f.rows.length).getD n 0 = n := by
    rw [List.getD_eq_getElem _ _ (by simpa using hn)]
    exact List.getElem_range ..
  rw [hrg]

theorem dotQ_self : ∀ v : Vec, dotQ v v = (v.map (fun a => a ^ 2)).sum
  | [] => rfl
  | a :: t => by
    rw [dotQ, dotQ_self t, List.map_cons, List.sum_cons]
    ring

theorem length_whitenV (s v : Vec) : (whitenV s v).length = min s.length v.length :=
  List.length_zipWith ..

theorem getD_whitenV {s v : Vec} {r : Nat} (hs : r < s.length) (hv : r < v.length) :
    (whitenV s v).getD r 0 = v.getD r 0 / s.getD r 0 := by
  rw [whitenV, List.getD_eq_getElem?_getD, List.getElem?_zipWith,
    List.getElem?_eq_getElem hs, List.getElem?_eq_getElem hv,
    List.getD_eq_getElem s 0 hs, List.getD_eq_getElem v 0 hv]
  rfl

theorem error_eq_sum (f : JacobianFactor) (x : Nat → Vec) (nm : NoiseModelM)
    (hm : f.model = some nm) (hs : nm.sigmas.length = f.rows.length)
    (hb : f.b.length = f.rows.length) :
    error f x = some (((List.range f.rows.length).map (fun r =>
      (1 / 2 : ℚ) * ((rowAx f.keys (f.rows.getD r []) x - f.b.getD r 0)
        / nm.sigmas.getD r 0) ^ 2)).sum) := by
  by_cases hE : f.rows.isEmpty
  · have hm0 : f.rows.length = 0 := by simpa [List.isEmpty_iff_length_eq_zero] using hE
    rw [error, if_pos hE, hm0]
    simp
  · obtain ⟨huel, hueg⟩ := unweighted_error_spec f x hb
    have hwl : (whitenV nm.sigmas (unweighted_error f x)).length = f.rows.length := by
      rw [length_whitenV, hs, huel, min_self]
    rw [error, if_neg hE, error_vector, hm, Option.map_some', Option.map_some']
    rw [if_neg hE]
    refine congrArg some ?_
    rw [dotQ_self, ← map_range_getD (fun a => a ^ 2) 0, hwl]
    rw [← List.sum_map_mul_left]
    refine congrArg List.sum (List.map_congr_left ?_)
    intro r hrm
    rw [List.mem_range] at hrm
    rw [getD_whitenV (hs ▸ hrm) (huel ▸ hrm), hueg r hrm]

/-- Claim C4: `unweighted_error(x)` (the source's blockwise accumulation
starting from `−b`) equals the rowwise residual `A·x − b`; `error(x)` is
half the squared norm of the whitened residual; and `error` is 0 on an
empty factor. -/
theorem c4_error_formula (f : JacobianFactor) (x : Nat → Vec) (nm : NoiseModelM)
    (hm : f.model = some nm) (hs : nm.sigmas.length = f.rows.length)
    (hb : f.b.length = f.rows.length) :
    unweighted_error f x = axMinusB f x ∧
    error f x = some ((1 / 2 : ℚ) * normSq (whitenV nm.sigmas (axMinusB f x))) ∧
    (f.rows = [] → error f x = some 0) := by
  have hax := unweighted_error_eq_axMinusB f x hb
  refine ⟨hax, ?_, fun hempty => by rw [error, if_pos (by simp [hempty])]⟩
  by_cases hE : f.rows.isEmpty
  · have hrows : f.rows = [] := List.isEmpty_iff.mp hE
    have haxe : axMinusB f x = [] := by
      rw [axMinusB, hrows]
      rfl
    rw [error, if_pos hE, haxe]
    have : whitenV nm.sigmas [] = [] := List.zipWith_nil_right ..
    rw [this]
    norm_num [normSq]
  · rw [error, if_neg hE, error_vector, hm, Option.map_some', Option.map_some', if_neg hE,
      hax, dotQ_self]
    rfl

/-- Witness for C4: the spec's unary scenario evaluated at `x = 0` has
error `25/2`. -/
theorem c4_error_formula_witness :
    unweighted_error (mkJacobianFactor [(0, ⟨2, [[1, 0], [0, 1]]⟩)] [3, 4]
        (some ⟨[1, 1], false⟩)) (fun _ => [0, 0])
      = axMinusB (mkJacobianFactor [(0, ⟨2, [[1, 0], [0, 1]]⟩)] [3, 4]
        (some ⟨[1, 1], false⟩)) (fun _ => [0, 0]) ∧
    error (mkJacobianFactor [(0, ⟨2, [[1, 0], [0, 1]]⟩)] [3, 4]
        (some ⟨[1, 1], false⟩)) (fun _ => [0, 0])
      = some ((1 / 2 : ℚ) * normSq (whitenV [1, 1]
          (axMinusB (mkJacobianFactor [(0, ⟨2, [[1, 0], [0, 1]]⟩)] [3, 4]
            (some ⟨[1, 1], false⟩)) (fun _ => [0, 0])))) := by
  have h := c4_error_formula
    (mkJacobianFactor [(0, ⟨2, [[1, 0], [0, 1]]⟩)] [3, 4] (some ⟨[1, 1], false⟩))
    (fun _ => [0, 0]) ⟨[1, 1], false⟩ rfl (by with_unfolding_all rfl)
    (by with_unfolding_all rfl)
  exact ⟨h.1, h.2.1⟩

end GtsamJF

namespace GtsamJF

/-! Claim C5: the gradient free function.  First the vector algebra and the
characterisation of transposeMultiplyAdd. -/

theorem scaleV_one (v : Vec) : scaleV 1 v = v := by
  simp [scaleV]

theorem length_scaleV (c : ℚ) (v : Vec) : (scaleV c v).length = v.length :=
  List.length_map ..

theorem addV_assoc : ∀ a c d : Vec, addV (addV a c) d = addV a (addV c d)
  | [], _, _ => rfl
  | _ :: _, [], _ => rfl
  | _ :: _, _ :: _, [] => rfl
  | a :: as, c :: cs, d :: ds => by
    simp only [addV, List.zipWith_cons_cons] at *
    rw [add_assoc]
    exact congrArg _ (addV_assoc as cs ds)

theorem addV_zero_left (v : Vec) : addV (List.replicate v.length 0) v = v := by
  rw [addV, zipWith_replicate_left]
  simp

theorem addV_zero_right : ∀ v : Vec, addV v (List.replicate v.length 0) = v
  | [] => rfl
  | a :: t => by
    simp only [List.length_cons, List.replicate_succ, addV, List.zipWith_cons_cons, add_zero]
    exact congrArg _ (addV_zero_right t)

theorem mem_zipWith {α β γ : Type} (g : α → β → γ) :
    ∀ (l1 : List α) (l2 : List β) (u : γ), u ∈ List.zipWith g l1 l2 →
      ∃ a ∈ l1, ∃ c ∈ l2, u = g a c
  | [], _, u, hu => by simp at hu
  | _ :: _, [], u, hu => by simp at hu
  | a :: t1, c :: t2, u, hu => by
    rw [List.zipWith_cons_cons, List.mem_cons] at hu
    rcases hu with rfl | hu
    · exact ⟨a, List.mem_cons_self .., c, List.mem_cons_self .., rfl⟩
    · obtain ⟨a2, ha2, c2, hc2, rfl⟩ := mem_zipWith g t1 t2 u hu
      exact ⟨a2, List.mem_cons_of_mem _ ha2, c2, List.mem_cons_of_mem _ hc2, rfl⟩

theorem foldl_addV_length (n : Nat) : ∀ (L : List Vec) (v0 : Vec), v0.length = n →
    (∀ u ∈ L, u.length = n) → (L.foldl addV v0).length = n
  | [], _, h0, _ => h0
  | u :: L, v0, h0, hL => by
    rw [List.foldl_cons]
    exact foldl_addV_length n L _
      (by rw [length_addV, h0, hL u (List.mem_cons_self ..), min_self])
      (fun w hw => hL w (List.mem_cons_of_mem _ hw))

theorem WFf_block_len (f : JacobianFactor) (hwf : WFf f) :
    ∀ row ∈ f.rows, ∀ j, (row.getD j []).length = f.dims.getD j 0 := by
  intro row hrow j
  obtain ⟨-, -, -, hd, hrows, -⟩ := hwf
  obtain ⟨hrl, hrj⟩ := hrows row hrow
  by_cases hj : j < f.keys.length
  · exact hrj j hj
  · rw [List.getD_eq_default _ _ (by omega), List.getD_eq_default _ _ (by omega)]
    rfl

theorem aTmulVec_length (f : JacobianFactor) (pos : Nat) (e : Vec)
    (hrow : ∀ row ∈ f.rows, (row.getD pos []).length = f.dims.getD pos 0) :
    (aTmulVec f pos e).length = f.dims.getD pos 0 := by
  rw [aTmulVec]
  refine foldl_addV_length _ _ _ (List.length_replicate ..) ?_
  intro u hu
  obtain ⟨c, _, row, hrowm, rfl⟩ := mem_zipWith _ _ _ u hu
  rw [length_scaleV, hrow row hrowm]

theorem foldl_if_addV_length (cond : Nat → Prop) [DecidablePred cond]
    (t : Nat → Vec) (n : Nat) :
    ∀ (js : List Nat) (w0 : Vec), w0.length = n → (∀ j ∈ js, cond j → (t j).length = n) →
      (js.foldl (fun w j => if cond j then addV w (t j) else w) w0).length = n
  | [], _, h0, _ => h0
  | j :: js, w0, h0, hts => by
    rw [List.foldl_cons]
    by_cases hc : cond j
    · rw [if_pos hc]
      exact foldl_if_addV_length cond t n js _
        (by rw [length_addV, h0, hts j (List.mem_cons_self ..) hc, min_self])
        (fun i hi hci => hts i (List.mem_cons_of_mem _ hi) hci)
    · rw [if_neg hc]
      exact foldl_if_addV_length cond t n js w0 h0
        (fun i hi hci => hts i (List.mem_cons_of_mem _ hi) hci)

theorem foldl_if_addV (cond : Nat → Prop) [DecidablePred cond] (t : Nat → Vec) (n : Nat) :
    ∀ (js : List Nat) (w0 : Vec), w0.length = n → (∀ j ∈ js, cond j → (t j).length = n) →
      js.foldl (fun w j => if cond j then addV w (t j) else w) w0
        = addV w0 (js.foldl (fun w j => if cond j then addV w (t j) else w)
            (List.replicate n 0))
  | [], w0, h0, _ => by
    rw [List.foldl_nil, List.foldl_nil, ← h0, addV_zero_right]
  | j :: js, w0, h0, hts => by
    rw [List.foldl_cons, List.foldl_cons]
    have htail := fun i hi hci => hts i (List.mem_cons_of_mem _ hi) hci
    by_cases hc : cond j
    · rw [if_pos hc, if_pos hc]
      have htl : (t j).length = n := hts j (List.mem_cons_self ..) hc
      have h1 : (addV w0 (t j)).length = n := by
        rw [length_addV, h0, htl, min_self]
      rw [foldl_if_addV cond t n js (addV w0 (t j)) h1 htail]
      have hz : addV (List.replicate n 0) (t j) = t j := by
        rw [← htl]
        exact addV_zero_left _
      rw [hz, foldl_if_addV cond t n js (t j) htl htail, addV_assoc]
    · rw [if_neg hc, if_neg hc]
      exact foldl_if_addV cond t n js w0 h0 htail

theorem fold_updVV_apply (f : JacobianFactor) (E : Vec) :
    ∀ (ps : List Nat) (acc : Nat → Vec) (v : Nat),
      (ps.foldl (fun acc pos => updVV acc (f.keys.getD pos 0)
          (addV (acc (f.keys.getD pos 0)) (aTmulVec f pos E))) acc) v
        = ps.foldl (fun w j => if f.keys.getD j 0 = v then addV w (aTmulVec f j E) else w)
            (acc v)
  | [], _, _ => rfl
  | p :: ps, acc, v => by
    rw [List.foldl_cons, List.foldl_cons, fold_updVV_apply f E ps _ v]
    congr 1
    by_cases hk : f.keys.getD p 0 = v
    · rw [if_pos hk, updVV, if_pos hk.symm, hk]
    · rw [if_neg hk, updVV, if_neg (fun h => hk h.symm)]

theorem error_vector_eq (f : JacobianFactor) (x : Nat → Vec) :
    error_vector f x = f.model.map (fun nm => whitenV nm.sigmas (unweighted_error f x)) := by
  by_cases hE : f.rows.isEmpty
  · simp [error_vector, unweighted_error, hE]
  · simp [error_vector, unweighted_error, hE]

theorem mapM_error_vector (x : Nat → Vec) :
    ∀ fg : List JacobianFactor, (∀ f ∈ fg, f.model.isSome) →
      fg.mapM (fun f => error_vector f x)
        = some (fg.map (fun f => whitenV (modelSigmas f) (unweighted_error f x)))
  | [], _ => rfl
  | f :: rest, h => by
    obtain ⟨nm, hnm⟩ := Option.isSome_iff_exists.mp (h f (List.mem_cons_self ..))
    have ih := mapM_error_vector x rest (fun g hg => h g (List.mem_cons_of_mem _ hg))
    rw [List.mapM_cons, error_vector_eq, hnm, ih]
    simp [modelSigmas, hnm]

end GtsamJF

namespace GtsamJF

theorem foldl_zip_map {α β γ : Type} (h : α → β) (F : γ → α × β → γ) :
    ∀ (l : List α) (init : γ),
      (l.zip (l.map h)).foldl F init = l.foldl (fun w a => F w (a, h a)) init
  | [], _ => rfl
  | a :: t, init => by
    rw [List.map_cons, List.zip_cons_cons, List.foldl_cons, List.foldl_cons]
    exact foldl_zip_map h F t _

theorem tma_char (f : JacobianFactor) (nm : NoiseModelM) (hm : f.model = some nm)
    (hwf : WFf f) (x : Nat → Vec)
    (hx : ∀ j < f.keys.length, (x (f.keys.getD j 0)).length = f.dims.getD j 0)
    (alpha : ℚ) (e : Vec) (acc : Nat → Vec)
    (hacc : ∀ v, (acc v).length = (x v).length) :
    ∃ x2, transposeMultiplyAdd f alpha e acc = some x2 ∧
      (∀ v, x2 v = addV (acc v)
        (factorGradWith (scaleV alpha (whitenV nm.sigmas e)) f x v)) ∧
      (∀ v, (x2 v).length = (x v).length) := by
  have hts : ∀ v, ∀ j ∈ List.range f.keys.length, f.keys.getD j 0 = v →
      (aTmulVec f j (scaleV alpha (whitenV nm.sigmas e))).length = (x v).length := by
    intro v j hj hkv
    rw [List.mem_range] at hj
    rw [aTmulVec_length f j _ (fun row hrow => WFf_block_len f hwf row hrow j), ← hkv]
    exact (hx j hj).symm
  refine ⟨_, by rw [transposeMultiplyAdd, hm, Option.map_some'], fun v => ?_, fun v => ?_⟩
  · rw [fold_updVV_apply f _ (List.range f.keys.length) acc v,
      foldl_if_addV _ _ (x v).length _ _ (hacc v) (hts v)]
    rfl
  · rw [fold_updVV_apply f _ (List.range f.keys.length) acc v]
    rw [foldl_if_addV_length _ _ (x v).length _ _ (hacc v) (hts v)]

theorem tmaFG_char (x : Nat → Vec) (alpha : ℚ) :
    ∀ (fg : List JacobianFactor) (es : List Vec) (acc : Nat → Vec),
      (∀ f ∈ fg, WFf f) → xConsistent fg x →
      (∀ v, (acc v).length = (x v).length) →
      ∃ g, transposeMultiplyAddFG fg alpha es acc = some g ∧
        ∀ v, g v = (fg.zip es).foldl
          (fun w p => addV w (factorGradWith (scaleV alpha (whitenV (modelSigmas p.1) p.2))
            p.1 x v)) (acc v)
  | [], es, acc, _, _, _ => ⟨acc, rfl, fun _ => rfl⟩
  | _ :: _, [], acc, _, _, _ => ⟨acc, rfl, fun _ => rfl⟩
  | f :: fg, e :: es, acc, hwf, hx, hacc => by
    have hwff := hwf f (List.mem_cons_self ..)
    obtain ⟨nm, hnm⟩ := Option.isSome_iff_exists.mp hwff.1
    obtain ⟨x2, hx2, hx2v, hx2l⟩ := tma_char f nm hnm hwff x
      (hx f (List.mem_cons_self ..)) alpha e acc hacc
    obtain ⟨g, hg, hgv⟩ := tmaFG_char x alpha fg es x2
      (fun p hp => hwf p (List.mem_cons_of_mem _ hp))
      (fun p hp => hx p (List.mem_cons_of_mem _ hp)) hx2l
    refine ⟨g, ?_, fun v => ?_⟩
    · rw [transposeMultiplyAddFG, List.zip_cons_cons, List.foldlM_cons, hx2]
      exact hg
    · rw [hgv v, List.zip_cons_cons, List.foldl_cons]
      have hms : modelSigmas f = nm.sigmas := by simp [modelSigmas, hnm]
      have hstart : addV (acc v)
          (factorGradWith (scaleV alpha (whitenV (modelSigmas (f, e).1) (f, e).2)) (f, e).1 x v)
          = x2 v := by
        show addV (acc v) (factorGradWith (scaleV alpha (whitenV (modelSigmas f) e)) f x v)
          = x2 v
        rw [hms, hx2v v]
      rw [hstart]

/-- Claim C5 (amended): `gradient(fg, x)` forms each factor's
`error_vector` and accumulates via `transposeMultiplyAdd` with `alpha = 1`
into a zero clone of `x`; the result at each variable is the sum over
factors of `Aⱼᵀ` applied to the doubly whitened residual
`whiten(whiten(A·x − b))` — i.e. `Aᵀ Σ⁻¹ (A·x − b)` with `Σ = diag(σ²)`,
not the raw residual. -/
theorem c5_gradient_formula (fg : List JacobianFactor) (x : Nat → Vec)
    (hwf : ∀ f ∈ fg, WFf f) (hx : xConsistent fg x) :
    ∃ g, gradientFG fg x = some g ∧ ∀ v, g v = gradSpec fg x v := by
  have hms : ∀ f ∈ fg, f.model.isSome := fun f hf => (hwf f hf).1
  have hmapM := mapM_error_vector x fg hms
  have hzc : ∀ v, (zeroClone x v).length = (x v).length := fun v => List.length_map ..
  obtain ⟨g, hg, hgv⟩ := tmaFG_char x 1 fg
    (fg.map (fun f => whitenV (modelSigmas f) (unweighted_error f x))) (zeroClone x)
    hwf hx hzc
  refine ⟨g, ?_, fun v => ?_⟩
  · simp only [gradientFG, bind, hmapM, Option.bind_some]
    exact hg
  · rw [hgv v, foldl_zip_map, gradSpec]
    have hbase : zeroClone x v = List.replicate (x v).length 0 := List.map_const' ..
    rw [hbase]
    refine List.foldl_ext _ _ _ ?_
    intro w f hf
    rw [scaleV_one, unweighted_error_eq_axMinusB f x (hwf f hf).2.2.1]
    rfl

/-- Counterexample to C5 as stated: with one factor `A = [1]`, `b = [0]`,
`σ = [2]` and `x(0) = [1]`, the code's gradient at variable 0 is `[1/4]`
(the residual is whitened twice), while the claim's formula
`Σ Aⱼᵀ (A·x − b)` gives `[1]`. -/
theorem c5_counterexample :
    (gradientFG [mkJacobianFactor [(0, ⟨1, [[1]]⟩)] [0] (some ⟨[2], false⟩)]
        (fun _ => [1])).map (fun g => g 0)
      ≠ some (gradClaimed [mkJacobianFactor [(0, ⟨1, [[1]]⟩)] [0] (some ⟨[2], false⟩)]
          (fun _ => [1]) 0) := by
  with_unfolding_all decide

/-- Witness for C5 at the counterexample's factor graph. -/
theorem c5_gradient_formula_witness :
    ∃ g, gradientFG [mkJacobianFactor [(0, ⟨1, [[1]]⟩)] [0] (some ⟨[2], false⟩)]
        (fun _ => [1]) = some g ∧
      ∀ v, g v = gradSpec [mkJacobianFactor [(0, ⟨1, [[1]]⟩)] [0] (some ⟨[2], false⟩)]
        (fun _ => [1]) v :=
  c5_gradient_formula [mkJacobianFactor [(0, ⟨1, [[1]]⟩)] [0] (some ⟨[2], false⟩)]
    (fun _ => [1]) (by with_unfolding_all decide) (by with_unfolding_all decide)

end GtsamJF

namespace GtsamJF

/-! Claim C1: Combine preserves the total error.  Facts about the slot
lookup, the key union and sums over nodup lists, then the per-row heart of
the argument. -/

theorem idxOf?_eq_none {v : Nat} : ∀ l : List Nat, idxOf? v l = none ↔ v ∉ l
  | [] => by simp [idxOf?]
  | k :: rest => by
    rw [idxOf?]
    by_cases hk : k = v
    · simp [hk]
    · simp only [if_neg hk, Option.map_eq_none', idxOf?_eq_none rest, List.mem_cons]
      exact ⟨fun h hmem => h (hmem.resolve_left (fun hh => hk hh.symm)),
        fun h hmem => h (Or.inr hmem)⟩

theorem idxOf?_some_spec {v : Nat} :
    ∀ (l : List Nat) (j : Nat), idxOf? v l = some j → j < l.length ∧ l.getD j 0 = v
  | [], j, h => by simp [idxOf?] at h
  | k :: rest, j, h => by
    rw [idxOf?] at h
    by_cases hk : k = v
    · rw [if_pos hk, Option.some.injEq] at h
      rw [← h]
      exact ⟨Nat.succ_pos _, hk⟩
    · rw [if_neg hk, Option.map_eq_some'] at h
      obtain ⟨j2, hj2, rfl⟩ := h
      obtain ⟨hlt, hget⟩ := idxOf?_some_spec rest j2 hj2
      exact ⟨Nat.succ_lt_succ hlt, by rw [List.getD_cons_succ]; exact hget⟩

theorem idxOf?_getD_nodup :
    ∀ (l : List Nat), l.Nodup → ∀ j < l.length, idxOf? (l.getD j 0) l = some j
  | [], _, j, hj => by simp at hj
  | k :: rest, hn, 0, _ => by
    rw [List.getD_cons_zero, idxOf?, if_pos rfl]
  | k :: rest, hn, j + 1, hj => by
    rw [List.getD_cons_succ, idxOf?]
    have hmem : rest.getD j 0 ∈ rest :=
      (List.getD_eq_getElem rest 0 (Nat.lt_of_succ_lt_succ hj)) ▸
        List.getElem_mem (Nat.lt_of_succ_lt_succ hj)
    rw [if_neg (fun hk => (List.nodup_cons.mp hn).1 (by rw [hk]; exact hmem))]
    rw [idxOf?_getD_nodup rest (List.nodup_cons.mp hn).2 j (Nat.lt_of_succ_lt_succ hj)]
    rfl

theorem mem_unionKeys (factors : List JacobianFactor) (v : Nat) :
    v ∈ unionKeys factors ↔ ∃ f ∈ factors, v ∈ f.keys := by
  rw [unionKeys, List.mem_dedup, (List.mergeSort_perm _ _).mem_iff, List.mem_flatMap]

theorem nodup_unionKeys (factors : List JacobianFactor) : (unionKeys factors).Nodup :=
  List.nodup_dedup _

theorem sum_map_eq_of_zero_outside (G : Nat → ℚ) (l1 l2 : List Nat)
    (h1 : l1.Nodup) (h2 : l2.Nodup) (hsub : ∀ v ∈ l2, v ∈ l1)
    (hz : ∀ v ∈ l1, v ∉ l2 → G v = 0) : (l1.map G).sum = (l2.map G).sum := by
  classical
  have hperm := List.filter_append_perm (fun v => decide (v ∈ l2)) l1
  have hsum1 : (l1.map G).sum = ((l1.filter (fun v => decide (v ∈ l2))).map G).sum
      + ((l1.filter (fun v => !decide (v ∈ l2))).map G).sum := by
    rw [← List.sum_append, ← List.map_append]
    exact ((hperm.map G).sum_eq).symm
  have hzero : ((l1.filter (fun v => !decide (v ∈ l2))).map G).sum = 0 := by
    apply List.sum_eq_zero
    intro q hq
    rw [List.mem_map] at hq
    obtain ⟨v, hv, rfl⟩ := hq
    rw [List.mem_filter] at hv
    exact hz v hv.1 (by simpa using hv.2)
  have hpf : (l1.filter (fun v => decide (v ∈ l2))).Perm l2 := by
    rw [List.perm_ext_iff_of_nodup (h1.filter _) h2]
    intro a
    rw [List.mem_filter]
    simp only [decide_eq_true_eq]
    exact ⟨fun h => h.2, fun h => ⟨hsub a h, h⟩⟩
  rw [hsum1, hzero, add_zero, (hpf.map G).sum_eq]

theorem rowAx_map (L : List (Nat × List (Option Nat)))
    (g : Nat × List (Option Nat) → Vec) (x : Nat → Vec) :
    rowAx (L.map Prod.fst) (L.map g) x = (L.map (fun p => dotQ (g p) (x p.1))).sum := by
  rw [rowAx, List.length_map, ← map_range_getD (fun p => dotQ (g p) (x p.1)) (0, []) L]
  refine congrArg List.sum (List.map_congr_left ?_)
  intro j hj
  rw [List.mem_range] at hj
  rw [getD_map_lt g L hj (0, []) [], getD_map_lt Prod.fst L hj (0, []) 0]

theorem mem_rowSources (factors : List JacobianFactor) (rs : RowSrc)
    (h : rs ∈ rowSources factors) :
    ∃ i < factors.length, ∃ r < (factors.getD i jfNull).rows.length,
      rs = rowSrcOf (factors.getD i jfNull) i r := by
  rw [rowSources, (List.mergeSort_perm _ _).mem_iff, rowSourcesU, List.mem_flatMap] at h
  obtain ⟨i, hi, hmem⟩ := h
  rw [List.mem_range] at hi
  rw [List.mem_map] at hmem
  obtain ⟨r, hr, rfl⟩ := hmem
  rw [List.mem_range] at hr
  exact ⟨i, hi, r, hr, rfl⟩

theorem combine_rowAx (factors : List JacobianFactor) (x : Nat → Vec)
    (i r : Nat) (hi : i < factors.length)
    (hnd : (factors.getD i jfNull).keys.Nodup)
    (hst : staircaseValid (factors.getD i jfNull))
    (hr : r < (factors.getD i jfNull).rows.length)
    (rs : RowSrc) (hrsf : rs.factorI = i) (hrsr : rs.rowI = r) :
    rowAx ((variableSlots factors).map Prod.fst)
        ((variableSlots factors).map (combineBlockFor factors rs)) x
      = rowAx (factors.getD i jfNull).keys
          ((factors.getD i jfNull).rows.getD r []) x := by
  classical
  have hpoint : ∀ v ∈ unionKeys factors,
      dotQ (combineBlockFor factors rs (v, factors.map (fun g => idxOf? v g.keys))) (x v)
        = slotContrib (factors.getD i jfNull) r x v := by
    intro v _
    have hslot : (factors.map (fun g => idxOf? v g.keys)).getD rs.factorI none
        = idxOf? v (factors.getD i jfNull).keys := by
      rw [hrsf, getD_map_lt (fun g => idxOf? v g.keys) factors hi jfNull none]
    simp only [combineBlockFor]
    rw [hslot]
    cases hidx : idxOf? v (factors.getD i jfNull).keys with
    | none =>
      simp only [slotContrib, hidx]
      exact dotQ_replicate_zero _ _
    | some j =>
      rw [hrsf, hrsr]
      show dotQ (if (factors.getD i jfNull).firstNonzeroBlocks.getD r 0 ≤ j then
            ((factors.getD i jfNull).rows.getD r []).getD j []
          else List.replicate
            (firstDimOf factors (List.map (fun g => idxOf? v g.keys) factors)) 0)
          (x v)
        = slotContrib (factors.getD i jfNull) r x v
      by_cases hfnb : (factors.getD i jfNull).firstNonzeroBlocks.getD r 0 ≤ j
      · rw [if_pos hfnb]
        simp only [slotContrib, hidx]
      · rw [if_neg hfnb]
        have hz : ∀ a ∈ ((factors.getD i jfNull).rows.getD r []).getD j [], a = 0 :=
          hst r hr j (by omega)
        simp only [slotContrib, hidx]
        rw [dotQ_replicate_zero, dotQ_zero_left _ _ hz]
  rw [rowAx_map]
  have hmm2 : (variableSlots factors).map
      (fun p => dotQ (combineBlockFor factors rs p) (x p.1))
      = (unionKeys factors).map (slotContrib (factors.getD i jfNull) r x) := by
    rw [variableSlots, List.map_map]
    refine List.map_congr_left ?_
    intro v hv
    exact hpoint v hv
  rw [hmm2]
  have hfmem : factors.getD i jfNull ∈ factors := by
    rw [List.getD_eq_getElem factors jfNull hi]
    exact List.getElem_mem hi
  have hsum2 : ((unionKeys factors).map (slotContrib (factors.getD i jfNull) r x)).sum
      = ((factors.getD i jfNull).keys.map (slotContrib (factors.getD i jfNull) r x)).sum := by
    refine sum_map_eq_of_zero_outside _ _ _ (nodup_unionKeys factors) hnd
      (fun v hv => (mem_unionKeys factors v).mpr ⟨_, hfmem, hv⟩) ?_
    intro v _ hvn
    simp only [slotContrib, (idxOf?_eq_none _).mpr hvn]
  rw [hsum2, rowAx, ← map_range_getD (slotContrib (factors.getD i jfNull) r x) 0]
  refine congrArg List.sum (List.map_congr_left ?_)
  intro j hj
  rw [List.mem_range] at hj
  simp only [slotContrib, idxOf?_getD_nodup _ hnd j hj]

end GtsamJF

namespace GtsamJF

theorem getD_mem_of_lt {α : Type} (l : List α) (d : α) {i : Nat} (h : i < l.length) :
    l.getD i d ∈ l := by
  rw [List.getD_eq_getElem l d h]
  exact List.getElem_mem h

theorem modelSigmas_of_some {f : JacobianFactor} {nm : NoiseModelM}
    (h : f.model = some nm) : modelSigmas f = nm.sigmas := by
  simp [modelSigmas, h]

theorem srcCost_rowSrcOf (factors : List JacobianFactor) (x : Nat → Vec)
    (i r : Nat) :
    srcCost factors x (rowSrcOf (factors.getD i jfNull) i r)
      = (1 / 2 : ℚ) * ((rowAx (factors.getD i jfNull).keys
          ((factors.getD i jfNull).rows.getD r []) x
        - (factors.getD i jfNull).b.getD r 0)
        / (modelSigmas (factors.getD i jfNull)).getD r 0) ^ 2 := rfl

theorem inner_sum_eq_errorD (factors : List JacobianFactor) (x : Nat → Vec)
    (i : Nat) (hi : i < factors.length) (hwfi : WFf (factors.getD i jfNull)) :
    ((List.range (factors.getD i jfNull).rows.length).map
      (fun r => srcCost factors x (rowSrcOf (factors.getD i jfNull) i r))).sum
      = errorD (factors.getD i jfNull) x := by
  obtain ⟨hms, hσl, hbl, -, -, -⟩ := hwfi
  obtain ⟨nm, hnm⟩ := Option.isSome_iff_exists.mp hms
  have hσ2 : nm.sigmas.length = (factors.getD i jfNull).rows.length := by
    rw [← modelSigmas_of_some hnm]
    exact hσl
  rw [errorD, error_eq_sum (factors.getD i jfNull) x nm hnm hσ2 hbl, Option.getD_some]
  refine congrArg List.sum (List.map_congr_left ?_)
  intro r _
  rw [srcCost_rowSrcOf, modelSigmas_of_some hnm]

/-- Claim C1: for factors with consistent dimensions (and semantically
valid staircase hints, present models and distinct keys — the data-model
invariants) and any `x` of matching dimensions, the error of the joint
factor `Combine(factors, variableSlots)` at `x` is the sum of the
individual factors' errors at `x`. -/
theorem c1_combine_error_sum (factors : List JacobianFactor) (x : Nat → Vec)
    (hwf : ∀ f ∈ factors, WFf f) (hst : ∀ f ∈ factors, staircaseValid f)
    (hdims : dimsConsistent factors) (hx : xConsistent factors x) :
    error (Combine factors (variableSlots factors)) x
      = some ((factors.map (fun f => errorD f x)).sum) := by
  classical
  have hmC : (Combine factors (variableSlots factors)).model
      = some ⟨(rowSources factors).map (fun rs =>
          (modelSigmas (factors.getD rs.factorI jfNull)).getD rs.rowI 0),
        factors.any modelConstrained⟩ := rfl
  have hsC : ((⟨(rowSources factors).map (fun rs =>
          (modelSigmas (factors.getD rs.factorI jfNull)).getD rs.rowI 0),
        factors.any modelConstrained⟩ : NoiseModelM)).sigmas.length
      = (Combine factors (variableSlots factors)).rows.length := by
    show ((rowSources factors).map _).length = ((rowSources factors).map _).length
    rw [List.length_map, List.length_map]
  have hbC : (Combine factors (variableSlots factors)).b.length
      = (Combine factors (variableSlots factors)).rows.length := by
    show ((rowSources factors).map _).length = ((rowSources factors).map _).length
    rw [List.length_map, List.length_map]
  rw [error_eq_sum _ x _ hmC hsC hbC]
  refine congrArg some ?_
  have hCl : (Combine factors (variableSlots factors)).rows.length
      = (rowSources factors).length := List.length_map ..
  rw [hCl]
  -- the right-hand side, walked back to a sum over the sorted row sources
  have h4 : (factors.map (fun f => errorD f x)).sum
      = ((List.range factors.length).map
          (fun i => errorD (factors.getD i jfNull) x)).sum :=
    (congrArg List.sum (map_range_getD (fun f => errorD f x) jfNull factors)).symm
  have h3 : ((rowSourcesU factors).map (srcCost factors x)).sum
      = ((List.range factors.length).map
          (fun i => errorD (factors.getD i jfNull) x)).sum := by
    rw [rowSourcesU, List.map_flatMap, List.flatMap_def, List.sum_flatten, List.map_map]
    refine congrArg List.sum (List.map_congr_left ?_)
    intro i hi
    rw [List.mem_range] at hi
    have hwfi := hwf (factors.getD i jfNull) (getD_mem_of_lt factors jfNull hi)
    show (List.map (srcCost factors x)
        (List.map (fun r => rowSrcOf (factors.getD i jfNull) i r)
          (List.range (factors.getD i jfNull).rows.length))).sum
      = errorD (factors.getD i jfNull) x
    rw [List.map_map]
    exact inner_sum_eq_errorD factors x i hi hwfi
  have h2 : ((rowSources factors).map (srcCost factors x)).sum
      = ((rowSourcesU factors).map (srcCost factors x)).sum :=
    ((List.mergeSort_perm (rowSourcesU factors) _).map (srcCost factors x)).sum_eq
  rw [h4, ← h3, ← h2, ← map_range_getD (srcCost factors x) default (rowSources factors)]
  refine congrArg List.sum (List.map_congr_left ?_)
  intro r hr
  rw [List.mem_range] at hr
  -- identify the source row behind output row r
  have hmem : (rowSources factors).getD r default ∈ rowSources factors :=
    getD_mem_of_lt _ default hr
  obtain ⟨i, hi, rr, hrr, hrs⟩ := mem_rowSources factors _ hmem
  have e1 : (Combine factors (variableSlots factors)).rows.getD r []
      = (variableSlots factors).map
          (combineBlockFor factors ((rowSources factors).getD r default)) :=
    getD_map_lt _ (rowSources factors) hr default []
  have e2 : (Combine factors (variableSlots factors)).b.getD r 0
      = (factors.getD ((rowSources factors).getD r default).factorI jfNull).b.getD
          ((rowSources factors).getD r default).rowI 0 :=
    getD_map_lt _ (rowSources factors) hr default 0
  have e3 : ((⟨(rowSources factors).map (fun rs =>
          (modelSigmas (factors.getD rs.factorI jfNull)).getD rs.rowI 0),
        factors.any modelConstrained⟩ : NoiseModelM)).sigmas.getD r 0
      = (modelSigmas (factors.getD ((rowSources factors).getD r default).factorI
          jfNull)).getD ((rowSources factors).getD r default).rowI 0 :=
    getD_map_lt _ (rowSources factors) hr default 0
  have e4 : (Combine factors (variableSlots factors)).keys
      = (variableSlots factors).map Prod.fst := rfl
  rw [e1, e2, e3, e4, hrs]
  have hfI : (rowSrcOf (factors.getD i jfNull) i rr).factorI = i := rfl
  have hrI : (rowSrcOf (factors.getD i jfNull) i rr).rowI = rr := rfl
  rw [hfI, hrI]
  have hheart := combine_rowAx factors x i rr hi
    (hwf (factors.getD i jfNull) (getD_mem_of_lt factors jfNull hi)).2.2.2.2.2
    (hst (factors.getD i jfNull) (getD_mem_of_lt factors jfNull hi)) hrr
    (rowSrcOf (factors.getD i jfNull) i rr) hfI hrI
  rw [hheart, srcCost_rowSrcOf]

/-- Witness for C1: the spec's Combine scenario, two unary factors on key
0 with `b = 1` and `b = 3`, evaluated at `x(0) = [2]`. -/
theorem c1_combine_error_sum_witness :
    error (Combine
        [mkJacobianFactor [(0, ⟨1, [[1]]⟩)] [1] (some ⟨[1], false⟩),
         mkJacobianFactor [(0, ⟨1, [[1]]⟩)] [3] (some ⟨[1], false⟩)]
        (variableSlots
          [mkJacobianFactor [(0, ⟨1, [[1]]⟩)] [1] (some ⟨[1], false⟩),
           mkJacobianFactor [(0, ⟨1, [[1]]⟩)] [3] (some ⟨[1], false⟩)]))
        (fun _ => [2])
      = some (([mkJacobianFactor [(0, ⟨1, [[1]]⟩)] [1] (some ⟨[1], false⟩),
          mkJacobianFactor [(0, ⟨1, [[1]]⟩)] [3] (some ⟨[1], false⟩)].map
            (fun f => errorD f (fun _ => [2]))).sum) :=
  c1_combine_error_sum
    [mkJacobianFactor [(0, ⟨1, [[1]]⟩)] [1] (some ⟨[1], false⟩),
     mkJacobianFactor [(0, ⟨1, [[1]]⟩)] [3] (some ⟨[1], false⟩)]
    (fun _ => [2]) (by with_unfolding_all decide) (by with_unfolding_all decide)
    (by with_unfolding_all decide) (by with_unfolding_all decide)

end GtsamJF
